import Mathlib

-- Verification of the semantic front end of the Erlang language tool:
-- a shallow embedding of the source-database queries (crates/base_db/src/lib.rs),
-- of the transitive stub-validity checker (crates/eqwalizer/src/ast/trans_valid.rs),
-- and of the HIR lowering engine (crates/hir/src/body/lower.rs), together with
-- theorems settling the specification claims about them.

set_option maxRecDepth 20000

-- ===================================================================
-- Part 1: source database queries (crates/base_db/src/lib.rs)
-- ===================================================================

-- A file's text is modelled as its sequence of Unicode scalar values;
-- Rust byte indices are recovered through the UTF-8 width of each scalar.

/-- UTF-8 byte width of one Unicode scalar value, as in Rust's `char::len_utf8`. -/
def charUtf8Width (c : Char) : Nat :=
  if c.toNat < 0x80 then 1
  else if c.toNat < 0x800 then 2
  else if c.toNat < 0x10000 then 3
  else 4

/-- Total UTF-8 byte length of a text, as in Rust's `str::len`. -/
def textUtf8Len (t : List Char) : Nat :=
  (t.map charUtf8Width).sum

/-- Whether byte index `i` lies on a character boundary of the text,
as in Rust's `str::is_char_boundary` (indices strictly inside the
encoding of one scalar are not boundaries). -/
def isCharBoundary : List Char → Nat → Bool
  | _, 0 => true
  | [], _ + 1 => false
  | c :: cs, n + 1 =>
    if n + 1 < charUtf8Width c then false
    else isCharBoundary cs (n + 1 - charUtf8Width c)

/-- The characters of the byte slice `text[0..i]`; at a character boundary
this is exactly the prefix of scalars whose encodings fit in `i` bytes. -/
def takeUtf8Bytes : List Char → Nat → List Char
  | _, 0 => []
  | [], _ + 1 => []
  | c :: cs, n + 1 =>
    if charUtf8Width c ≤ n + 1 then c :: takeUtf8Bytes cs (n + 1 - charUtf8Width c)
    else []

/-- Substring containment on character lists, as in Rust's `str::contains`
with a string pattern. -/
def containsSeq (pat : List Char) : List Char → Bool
  | [] => pat.isEmpty
  | c :: rest => pat.isPrefixOf (c :: rest) || containsSeq pat rest

/-- Embedding of `is_generated` (crates/base_db/src/lib.rs, lines 169-172):

    contents[0..(2001.min(contents.len()))].contains("@generated")

Rust's string slicing panics when the end index is not a character
boundary; the panic is modelled as `none`. -/
def isGenerated (contents : List Char) : Option Bool :=
  let idx := min 2001 (textUtf8Len contents)
  if isCharBoundary contents idx then
    some (containsSeq ("@generated".toList) (takeUtf8Bytes contents idx))
  else
    none

-- The project-metadata queries.  `FileId` and `SourceRootId` are opaque
-- identifiers.  `AppData` and `SourceRoot` live in crates/base_db/src/input.rs,
-- which is not part of the sources under review; the fields used by the
-- queries in lib.rs are modelled from the spec.

abbrev FileId := Nat

abbrev SourceRootId := Nat

/-- Modelled from the spec: `AppType` of the external project model
("application metadata"); the queries only pass it through. -/
inductive AppType where
  | app
  | dep
  | otp
deriving DecidableEq, Repr

/-- Modelled from the spec: the per-application metadata record
(`input::AppData`), with its app type, name, and the "extra/test-only
file classification" used by `is_test_suite_or_test_helper`. -/
structure AppData where
  appType : AppType
  name : String
  isExtraSrcFile : String → Bool

/-- Modelled from the spec: a source root assigns each of its files a path
(`SourceRoot::path_for_file`). -/
structure SourceRoot where
  pathForFile : FileId → Option String

/-- The input facts of the source database that the derived metadata
queries read (crates/base_db/src/lib.rs, salsa inputs). -/
structure SourceDb where
  fileSourceRoot : FileId → SourceRootId
  sourceRoot : SourceRootId → SourceRoot
  appData : SourceRootId → Option AppData

/-- Embedding of `is_test_suite_or_test_helper` (lib.rs, lines 174-184). -/
def isTestSuiteOrTestHelper (db : SourceDb) (fileId : FileId) : Option Bool :=
  let rootId := db.fileSourceRoot fileId
  let root := db.sourceRoot rootId
  match db.appData rootId with
  | none => none
  | some appData =>
    match root.pathForFile fileId with
    | none => none
    | some path =>
      if appData.isExtraSrcFile path then some true else some false

/-- Embedding of `file_app_type` (lib.rs, lines 186-189). -/
def fileAppType (db : SourceDb) (fileId : FileId) : Option AppType :=
  match db.appData (db.fileSourceRoot fileId) with
  | none => none
  | some appData => some appData.appType

/-- Embedding of `file_app_name` (lib.rs, lines 191-194). -/
def fileAppName (db : SourceDb) (fileId : FileId) : Option String :=
  match db.appData (db.fileSourceRoot fileId) with
  | none => none
  | some appData => some appData.name

-- A file whose 2001st byte falls inside the two-byte encoding of 'é':
-- 2000 one-byte characters followed by one two-byte character.

/-- The concrete file text on which `is_generated` panics. -/
def c5BadText : List Char := List.replicate 2000 'a' ++ ['é']

theorem textUtf8Len_replicate_a_append (n : Nat) (rest : List Char) :
    textUtf8Len (List.replicate n 'a' ++ rest) = n + textUtf8Len rest := by
  induction n with
  | zero => simp [textUtf8Len]
  | succ m ih =>
    have : charUtf8Width 'a' = 1 := by decide
    simp only [List.replicate_succ, List.cons_append, textUtf8Len, List.map_cons,
      List.sum_cons, this] at ih ⊢
    omega

theorem isCharBoundary_cons_a (l : List Char) (j : Nat) :
    isCharBoundary ('a' :: l) (j + 1) = isCharBoundary l j := by
  show (if j + 1 < charUtf8Width 'a' then false
        else isCharBoundary l (j + 1 - charUtf8Width 'a')) = isCharBoundary l j
  have hw : charUtf8Width 'a' = 1 := by decide
  rw [hw]
  simp

theorem isCharBoundary_replicate_a_append (n k : Nat) (rest : List Char) :
    isCharBoundary (List.replicate n 'a' ++ rest) (n + k) = isCharBoundary rest k := by
  induction n with
  | zero => simp
  | succ m ih =>
    have hidx : m + 1 + k = (m + k) + 1 := by omega
    rw [List.replicate_succ, List.cons_append, hidx, isCharBoundary_cons_a]
    exact ih

/-- C5, failing input: `is_generated` slices the first
`min 2001 len` bytes of the file text, and on a 2002-byte text whose
byte 2001 is the second byte of a two-byte character the slice index is
not a character boundary, so the Rust code panics (modelled as `none`).
The spec requires that no query panic on any input content. -/
theorem c5_is_generated_panics :
    textUtf8Len c5BadText = 2002 ∧ isGenerated c5BadText = none := by
  have hlen : textUtf8Len c5BadText = 2002 := by
    have := textUtf8Len_replicate_a_append 2000 ['é']
    have he : textUtf8Len ['é'] = 2 := by decide
    simp only [c5BadText, this, he]
  refine ⟨hlen, ?_⟩
  have hidx : min 2001 (textUtf8Len c5BadText) = 2001 := by
    rw [hlen]
    decide
  have hb : isCharBoundary c5BadText 2001 = false := by
    have h1 : (2001 : Nat) = 2000 + 1 := by omega
    have h2 := isCharBoundary_replicate_a_append 2000 1 ['é']
    have he : isCharBoundary ['é'] 1 = false := by decide
    rw [c5BadText, h1, h2, he]
  simp only [isGenerated, hidx, hb, Bool.false_eq_true, if_false]

/-- C5, sanity complement: on any text that is at most 2001 bytes long the
slice end index equals the text length, which is always a boundary, so the
query does return a value there; the panic needs a longer text. -/
theorem c5_short_text_returns (t : List Char) (h : textUtf8Len t ≤ 2001) :
    (isGenerated t).isSome := by
  have hidx : min 2001 (textUtf8Len t) = textUtf8Len t := Nat.min_eq_right h
  have hb : ∀ u : List Char, isCharBoundary u (textUtf8Len u) = true := by
    intro u
    induction u with
    | nil => rfl
    | cons c cs ih =>
      have hw : 1 ≤ charUtf8Width c := by
        unfold charUtf8Width
        split
        · omega
        split
        · omega
        split
        · omega
        · omega
      have hlen : textUtf8Len (c :: cs) = charUtf8Width c + textUtf8Len cs := by
        simp [textUtf8Len]
      rcases Nat.exists_eq_add_of_le hw with ⟨k, hk⟩
      have hpos : textUtf8Len (c :: cs) = (k + textUtf8Len cs) + 1 := by omega
      rw [hpos]
      unfold isCharBoundary
      have hlt : ¬ (k + textUtf8Len cs + 1 < charUtf8Width c) := by omega
      simp only [hlt, if_false]
      have : k + textUtf8Len cs + 1 - charUtf8Width c = textUtf8Len cs := by omega
      rw [this]
      exact ih
  unfold isGenerated
  simp only [hidx, hb, if_true, Option.isSome_some]

/-- C5, witness for the sanity complement at a concrete short text. -/
theorem c5_short_text_returns_witness :
    textUtf8Len ('a' :: ['b']) ≤ 2001 ∧ (isGenerated ('a' :: ['b'])).isSome := by
  refine ⟨by decide, c5_short_text_returns _ (by decide)⟩

/-- C9: whenever the `app_data` input for the file's source root is unset,
each of the three metadata-dependent queries returns the absent value
(`none`) rather than an error: `is_test_suite_or_test_helper`,
`file_app_type` and `file_app_name` all propagate the absence. -/
theorem c9_absent_app_data_gives_none (db : SourceDb) (fileId : FileId)
    (h : db.appData (db.fileSourceRoot fileId) = none) :
    isTestSuiteOrTestHelper db fileId = none ∧
    fileAppType db fileId = none ∧
    fileAppName db fileId = none := by
  refine ⟨?_, ?_, ?_⟩
  · unfold isTestSuiteOrTestHelper
    simp only [h]
  · unfold fileAppType
    simp only [h]
  · unfold fileAppName
    simp only [h]

/-- A concrete database with no app data anywhere. -/
def c9Db : SourceDb :=
  { fileSourceRoot := fun _ => 0
    sourceRoot := fun _ => ⟨fun _ => some "src/a.erl"⟩
    appData := fun _ => none }

/-- C9, witness at a concrete database. -/
theorem c9_absent_app_data_gives_none_witness :
    c9Db.appData (c9Db.fileSourceRoot 7) = none ∧
    (isTestSuiteOrTestHelper c9Db 7 = none ∧
     fileAppType c9Db 7 = none ∧
     fileAppName c9Db 7 = none) :=
  ⟨rfl, c9_absent_app_data_gives_none c9Db 7 rfl⟩

-- ===================================================================
-- Part 2: transitive stub validity (crates/eqwalizer/src/ast/trans_valid.rs)
-- ===================================================================

-- References (`Ref::RidRef` / `Ref::RecRef`) are abstracted to numeric
-- identities.  For one reference, `collect_invalid_references` walks the
-- referenced declaration's type body and performs a sequence of `is_valid`
-- calls on the references it encounters (inserting those found invalid),
-- and may abort with `TransitiveCheckError::UnexpectedOpaqueType`; a
-- declaration is therefore abstracted to the list of references checked,
-- in call order, plus whether the walk aborts after them.  A failed
-- `covariant_stub` lookup and a reference with no declaration both make
-- the reference itself invalid, and are modelled as `none`.

structure TvBody where
  deps : List Nat
  err : Bool

/-- The mutable state of `TransitiveChecker`: the `in_progress` set and
the memo table `invalid_refs` (an insert-at-front association list, so a
later insert shadows an earlier one exactly like a hash-map insert). -/
structure TvState where
  inProgress : List Nat
  invalidRefs : List (Nat × List Nat)

/-- Lookup in the `invalid_refs` memo table. -/
def tvMemoFind (memo : List (Nat × List Nat)) (r : Nat) : Option (List Nat) :=
  match memo with
  | [] => none
  | (k, v) :: rest => if k = r then some v else tvMemoFind rest r

/-- Set-style insertion into the accumulated invalid list
(`FxHashSet::insert`). -/
def tvInsertRef (invs : List Nat) (d : Nat) : List Nat :=
  if d ∈ invs then invs else invs ++ [d]

/-- One step of the dependency loop inside `is_valid`: thread the state
through one `is_valid` call on dependency `d`, short-circuiting on fuel
exhaustion and on a `TransitiveCheckError`, and record `d` as invalid
when the call reports it invalid. -/
def tvStepF (check : TvState → Nat → Option (Except Unit (Bool × TvState)))
    (acc : Option (Except Unit (List Nat × TvState))) (d : Nat) :
    Option (Except Unit (List Nat × TvState)) :=
  match acc with
  | none => none
  | some (.error e) => some (.error e)
  | some (.ok (invs, s)) =>
    match check s d with
    | none => none
    | some (.error e) => some (.error e)
    | some (.ok (b, s')) => some (.ok ((if b then invs else tvInsertRef invs d), s'))

/-- Completion of one `is_valid` call after its dependency loop: propagate
fuel exhaustion or a `TransitiveCheckError` (the walk's final
`UnexpectedOpaqueType` abort happens before the state restore), otherwise
compute `has_invalids`, remove the reference from `in_progress`, memoize
the invalid set, and report validity. -/
def tvDone (r : Nat) (err : Bool)
    (res : Option (Except Unit (List Nat × TvState))) :
    Option (Except Unit (Bool × TvState)) :=
  match res with
  | none => none
  | some (.error e) => some (.error e)
  | some (.ok (invs, st2)) =>
    if err then some (.error ())
    else
      some (.ok (invs.isEmpty,
        ⟨st2.inProgress.erase r, (r, invs) :: st2.invalidRefs⟩))

/-- Embedding of `TransitiveChecker::is_valid`
(crates/eqwalizer/src/ast/trans_valid.rs, lines 270-328), with an explicit
recursion-depth fuel (`none` = fuel exhausted; the claim is that enough
fuel always exists).  The inner `Except` models `TransitiveCheckError`
propagation via `?`, which aborts before `in_progress`/`invalid_refs` are
restored, so no state is carried on that path. -/
def isValidF (resolve : Nat → Option TvBody) : Nat → TvState → Nat →
    Option (Except Unit (Bool × TvState))
  | 0, _, _ => none
  | fuel + 1, st, r =>
    if r ∈ st.inProgress then
      some (.ok (true, st))
    else
      match tvMemoFind st.invalidRefs r with
      | some invs => some (.ok (invs.isEmpty, st))
      | none =>
        -- r is not in progress here, so set insertion is list cons
        match resolve r with
        | none =>
          -- stub lookup error, or no matching declaration: invalids = {r}
          some (.ok (false,
            ⟨(r :: st.inProgress).erase r, (r, [r]) :: st.invalidRefs⟩))
        | some body =>
          tvDone r body.err
            (body.deps.foldl (tvStepF (fun s d => isValidF resolve fuel s d))
              (some (.ok ([], ⟨r :: st.inProgress, st.invalidRefs⟩))))

theorem tvFold_none (check : TvState → Nat → Option (Except Unit (Bool × TvState)))
    (l : List Nat) : l.foldl (tvStepF check) none = none := by
  induction l with
  | nil => rfl
  | cons d rest ih => simpa [tvStepF] using ih

theorem tvFold_err (check : TvState → Nat → Option (Except Unit (Bool × TvState)))
    (l : List Nat) (e : Unit) :
    l.foldl (tvStepF check) (some (.error e)) = some (.error e) := by
  induction l with
  | nil => rfl
  | cons d rest ih => simpa [tvStepF] using ih

theorem tvStepF_ok (check : TvState → Nat → Option (Except Unit (Bool × TvState)))
    (invs : List Nat) (s : TvState) (d : Nat) :
    tvStepF check (some (.ok (invs, s))) d =
      match check s d with
      | none => none
      | some (.error e) => some (.error e)
      | some (.ok (b, s')) =>
        some (.ok ((if b then invs else tvInsertRef invs d), s')) := rfl

theorem tvFold_state (check : TvState → Nat → Option (Except Unit (Bool × TvState)))
    (P : TvState → Prop)
    (hP : ∀ s d b s', P s → check s d = some (.ok (b, s')) → P s') :
    ∀ (l : List Nat) (invs : List Nat) (s : TvState) (invs' : List Nat) (s' : TvState),
      P s → l.foldl (tvStepF check) (some (.ok (invs, s))) = some (.ok (invs', s')) →
      P s' := by
  intro l
  induction l with
  | nil =>
    intro invs s invs' s' hs h
    simp only [List.foldl_nil, Option.some.injEq, Except.ok.injEq, Prod.mk.injEq] at h
    rw [← h.2]
    exact hs
  | cons d rest ih =>
    intro invs s invs' s' hs h
    rw [List.foldl_cons, tvStepF_ok] at h
    rcases hc : check s d with _ | e₁
    · rw [hc] at h
      simp only [tvFold_none] at h
      exact absurd h (by simp)
    · rcases e₁ with e | be
      · rw [hc] at h
        simp only [tvFold_err] at h
        exact absurd h (by simp)
      · rcases be with ⟨b, s₁⟩
        rw [hc] at h
        exact ih _ s₁ invs' s' (hP s d b s₁ hs hc) h

theorem tvFold_not_none (check : TvState → Nat → Option (Except Unit (Bool × TvState)))
    (P : TvState → Prop)
    (hP : ∀ s d b s', P s → check s d = some (.ok (b, s')) → P s') :
    ∀ (l : List Nat) (invs : List Nat) (s : TvState),
      P s → (∀ s' d, P s' → d ∈ l → check s' d ≠ none) →
      l.foldl (tvStepF check) (some (.ok (invs, s))) ≠ none := by
  intro l
  induction l with
  | nil =>
    intro invs s _ _
    simp
  | cons d rest ih =>
    intro invs s hs hne
    rw [List.foldl_cons, tvStepF_ok]
    rcases hc : check s d with _ | e₁
    · exact absurd hc (hne s d hs (by simp))
    · rcases e₁ with e | be
      · simp only [tvFold_err]
        simp
      · rcases be with ⟨b, s₁⟩
        exact ih _ s₁ (hP s d b s₁ hs hc)
          (fun s' d' hs' hd' => hne s' d' hs' (by simp [hd']))

theorem tvDone_ok_inv (r : Nat) (err : Bool)
    (res : Option (Except Unit (List Nat × TvState))) (b : Bool) (st' : TvState)
    (h : tvDone r err res = some (.ok (b, st'))) :
    ∃ invs st2, res = some (.ok (invs, st2)) ∧ err = false ∧ b = invs.isEmpty ∧
      st' = ⟨st2.inProgress.erase r, (r, invs) :: st2.invalidRefs⟩ := by
  rcases res with _ | e
  · exact absurd h (by simp [tvDone])
  · rcases e with e | p
    · exact absurd h (by simp [tvDone])
    · rcases p with ⟨invs, st2⟩
      rcases herr : err with _ | _
      · refine ⟨invs, st2, rfl, rfl, ?_, ?_⟩
        · simp only [tvDone, herr, Bool.false_eq_true, if_false, Option.some.injEq,
            Except.ok.injEq, Prod.mk.injEq] at h
          exact h.1.symm
        · simp only [tvDone, herr, Bool.false_eq_true, if_false, Option.some.injEq,
            Except.ok.injEq, Prod.mk.injEq] at h
          exact h.2.symm
      · exact absurd h (by simp [tvDone, herr])

theorem tvDone_none_inv (r : Nat) (err : Bool)
    (res : Option (Except Unit (List Nat × TvState)))
    (h : tvDone r err res = none) : res = none := by
  rcases res with _ | e
  · rfl
  · rcases e with e | p
    · exact absurd h (by simp [tvDone])
    · rcases p with ⟨invs, st2⟩
      rcases herr : err with _ | _
      · exact absurd h (by simp [tvDone, herr])
      · exact absurd h (by simp [tvDone, herr])

/-- Once `is_valid` completes normally, the `in_progress` set is restored
to what it was at entry: the reference is removed again and every nested
call restores it likewise. -/
theorem isValidF_ok_restores (resolve : Nat → Option TvBody) :
    ∀ (fuel : Nat) (st : TvState) (r : Nat) (b : Bool) (st' : TvState),
      isValidF resolve fuel st r = some (.ok (b, st')) →
      st'.inProgress = st.inProgress := by
  intro fuel
  induction fuel with
  | zero =>
    intro st r b st' h
    exact absurd h (by simp [isValidF])
  | succ f ih =>
    intro st r b st' h
    unfold isValidF at h
    split at h
    · simp only [Option.some.injEq, Except.ok.injEq, Prod.mk.injEq] at h
      rw [← h.2]
    · split at h
      · simp only [Option.some.injEq, Except.ok.injEq, Prod.mk.injEq] at h
        rw [← h.2]
      · split at h
        · simp only [Option.some.injEq, Except.ok.injEq, Prod.mk.injEq] at h
          rw [← h.2]
          simp
        · rename_i hnotin hmemo body hbody
          obtain ⟨invs, st2, hfold, herr, hb, hst'⟩ := tvDone_ok_inv _ _ _ _ _ h
          have hst2 : st2.inProgress = r :: st.inProgress :=
            tvFold_state (fun s d => isValidF resolve f s d)
              (fun s => s.inProgress = r :: st.inProgress)
              (fun s d b' s' hs hc => by
                show s'.inProgress = r :: st.inProgress
                rw [ih s d b' s' hc]
                exact hs)
              body.deps [] ⟨r :: st.inProgress, st.invalidRefs⟩ invs st2 rfl hfold
          rw [hst']
          simp only [hst2]
          exact List.erase_cons_head r st.inProgress

/-- Termination measure: how many of the (finitely many) references below
`N` are not yet in the `in_progress` set. -/
def tvMissing (N : Nat) (st : TvState) : Nat :=
  ((Finset.range N).filter (fun x => x ∉ st.inProgress)).card

theorem tvMissing_insert_lt (N : Nat) (st : TvState) (r : Nat)
    (memo : List (Nat × List Nat)) (hrN : r < N) (hr : r ∉ st.inProgress) :
    tvMissing N ⟨r :: st.inProgress, memo⟩ < tvMissing N st := by
  unfold tvMissing
  have hBA : (Finset.range N).filter (fun x => x ∉ (⟨r :: st.inProgress, memo⟩ : TvState).inProgress) =
      ((Finset.range N).filter (fun x => x ∉ st.inProgress)).erase r := by
    ext x
    simp only [Finset.mem_filter, Finset.mem_range, Finset.mem_erase, List.mem_cons,
      not_or]
    tauto
  rw [hBA]
  apply Finset.card_erase_lt_of_mem
  simp only [Finset.mem_filter, Finset.mem_range]
  exact ⟨hrN, hr⟩

/-- With all references drawn from a finite universe of size `N`, fuel
exceeding the number of not-yet-in-progress references always suffices:
`is_valid` cannot recurse past the point where every reference is an
active frame, because an in-progress reference returns immediately. -/
theorem isValidF_enough_fuel (resolve : Nat → Option TvBody) (N : Nat)
    (hclosed : ∀ r b, resolve r = some b → ∀ d ∈ b.deps, d < N) :
    ∀ (fuel : Nat) (st : TvState) (r : Nat), r < N → tvMissing N st < fuel →
      isValidF resolve fuel st r ≠ none := by
  intro fuel
  induction fuel with
  | zero =>
    intro st r hrN hf
    exact absurd hf (by omega)
  | succ f ih =>
    intro st r hrN hf
    unfold isValidF
    split
    · simp
    · rename_i hnotin
      split
      · simp
      · split
        · simp
        · rename_i hmemo body hbody
          intro hcontra
          have hfold := tvDone_none_inv _ _ _ hcontra
          refine tvFold_not_none (fun s d => isValidF resolve f s d)
            (fun s => s.inProgress = r :: st.inProgress)
            (fun s d b' s' hs hc => by
              show s'.inProgress = r :: st.inProgress
              rw [isValidF_ok_restores resolve f s d b' s' hc]
              exact hs)
            body.deps [] ⟨r :: st.inProgress, st.invalidRefs⟩ rfl ?_ hfold
          intro s' d hs' hd
          apply ih s' d (hclosed r body hbody d hd)
          have hmiss : tvMissing N s' = tvMissing N ⟨r :: st.inProgress, st.invalidRefs⟩ := by
            unfold tvMissing
            rw [hs']
          rw [hmiss]
          have hlt := tvMissing_insert_lt N st r st.invalidRefs hrN hnotin
          omega

/-- C10: `TransitiveChecker::is_valid` terminates on every
reference-dependency graph, including cyclic ones.  With references drawn
from a finite universe of size `N`:  (1) for any graph, recursion depth
`N + 1` never exhausts the fuel from the initial empty state, so the
computation completes;  (2) a reference that is already in the
`in_progress` set is immediately reported valid, with no recursion and no
state change — so a cycle is never tagged invalid merely for being a
cycle;  (3) once a reference's invalid-set is memoized in `invalid_refs`
it is answered from the memo table, again with no recursion and no state
change. -/
theorem c10_is_valid_terminates (resolve : Nat → Option TvBody) (N : Nat)
    (hclosed : ∀ r b, resolve r = some b → ∀ d ∈ b.deps, d < N)
    (r : Nat) (hrN : r < N) :
    isValidF resolve (N + 1) ⟨[], []⟩ r ≠ none
    ∧ (∀ (fuel : Nat) (st : TvState), r ∈ st.inProgress →
        isValidF resolve (fuel + 1) st r = some (.ok (true, st)))
    ∧ (∀ (fuel : Nat) (st : TvState) (invs : List Nat), r ∉ st.inProgress →
        tvMemoFind st.invalidRefs r = some invs →
        isValidF resolve (fuel + 1) st r = some (.ok (invs.isEmpty, st))) := by
  refine ⟨?_, ?_, ?_⟩
  · apply isValidF_enough_fuel resolve N hclosed (N + 1) ⟨[], []⟩ r hrN
    have hle : tvMissing N ⟨[], []⟩ ≤ N := by
      unfold tvMissing
      calc ((Finset.range N).filter _).card ≤ (Finset.range N).card :=
            Finset.card_filter_le _ _
        _ = N := Finset.card_range N
    omega
  · intro fuel st hmem
    unfold isValidF
    simp [hmem]
  · intro fuel st invs hnot hfind
    unfold isValidF
    simp [hnot, hfind]

/-- A concrete mutually-cyclic reference graph: 0 depends on 1 and 1
depends on 0. -/
def c10Resolve : Nat → Option TvBody := fun r =>
  if r = 0 then some ⟨[1], false⟩ else if r = 1 then some ⟨[0], false⟩ else none

theorem c10Resolve_closed : ∀ r b, c10Resolve r = some b → ∀ d ∈ b.deps, d < 2 := by
  intro r b h d hd
  unfold c10Resolve at h
  split at h
  · cases h
    simp only [List.mem_singleton] at hd
    omega
  · split at h
    · cases h
      simp only [List.mem_singleton] at hd
      omega
    · exact absurd h (by simp)

/-- C10, witness: on the concrete two-element cycle the checker completes
from the empty state, reports an in-progress reference valid without
recursing, and answers a memoized reference from the table. -/
theorem c10_is_valid_terminates_witness :
    isValidF c10Resolve 3 ⟨[], []⟩ 0 ≠ none
    ∧ isValidF c10Resolve 1 ⟨[0], []⟩ 0 = some (.ok (true, ⟨[0], []⟩))
    ∧ isValidF c10Resolve 1 ⟨[], [(0, [])]⟩ 0 = some (.ok (true, ⟨[], [(0, [])]⟩)) := by
  have h := c10_is_valid_terminates c10Resolve 2 c10Resolve_closed 0 (by omega)
  refine ⟨h.1, ?_, ?_⟩
  · exact h.2.1 0 ⟨[0], []⟩ (by simp)
  · have h3 := h.2.2 0 ⟨[], [(0, [])]⟩ [] (by simp) (by rfl)
    simpa using h3

-- ===================================================================
-- Part 3: the HIR lowering engine (crates/hir/src/body/lower.rs)
-- ===================================================================

-- The syntax tree (crate elp_syntax, an external collaborator) is
-- modelled by the sub-grammar of `ast::Expr` that the claims exercise;
-- `ast::Expr::ExprMax` is flattened into the same inductive.  Token
-- un-escaping and numeral parsing are modelled as already performed, so
-- literal leaves carry their values.

/-- Map-field operator (`ast::MapOp`): `=>` is `assoc`, `:=` is `exact`. -/
inductive MapOp where
  | assoc
  | exact
deriving DecidableEq, Repr

mutual
inductive AstExpr where
  | atom (s : String)
  | int (n : Int)
  | char (c : Char)
  | str (s : String)
  | var (v : String)
  | tuple (exprs : List AstExpr)
  | list (exprs : List AstExpr)
  | pipe (lhs rhs : Option AstExpr)
  | paren (e : Option AstExpr)
  | call (target : Option AstExpr) (args : Option (List AstExpr))
  | mapLit (fields : List AstMapField)
  | binLit (elements : List AstBinElement)
  | macroCall (name : String) (args : Option (List AstMacroArg))

/-- One `ast::MapField`: optional key, optional value, optional operator. -/
inductive AstMapField where
  | mk (key : Option AstExpr) (value : Option AstExpr) (op : Option MapOp)

/-- One `ast::MacroExpr` argument of a macro call: its expression and
its optional guard. -/
inductive AstMacroArg where
  | mk (e : Option AstExpr) (guard : Option AstExpr)

/-- One `ast::BinElement`: the element, its optional size expression
(`element.size().and_then(|s| s.size())` flattened), and its type
qualifier list. -/
inductive AstBinElement where
  | mk (element : Option AstExpr) (size : Option AstExpr) (types : List AstBitType)

/-- One `ast::BitType`: a name (resolved as an atom) or a unit size. -/
inductive AstBitType where
  | name (n : AstExpr)
  | unitSize (sz : Option AstExpr)
end

def AstMapField.key : AstMapField → Option AstExpr
  | .mk k _ _ => k

def AstMapField.value : AstMapField → Option AstExpr
  | .mk _ v _ => v

def AstMapField.op : AstMapField → Option MapOp
  | .mk _ _ o => o

def AstMacroArg.e : AstMacroArg → Option AstExpr
  | .mk e _ => e

def AstMacroArg.guard : AstMacroArg → Option AstExpr
  | .mk _ g => g

def AstBinElement.element : AstBinElement → Option AstExpr
  | .mk el _ _ => el

def AstBinElement.size : AstBinElement → Option AstExpr
  | .mk _ sz _ => sz

def AstBinElement.types : AstBinElement → List AstBitType
  | .mk _ _ tys => tys

-- The HIR node types (crates/hir/src/expr.rs, as used by lower.rs).
-- Node ids are arena indices into the growing Body collections.

abbrev ExprId := Nat

abbrev PatId := Nat

abbrev TermId := Nat

/-- `crate::Literal`, restricted to the variants the modelled grammar
produces. -/
inductive Literal where
  | atom (s : String)
  | char (c : Char)
  | integer (n : Int)
  | string (s : String)
deriving DecidableEq, Repr

/-- `crate::BinarySeg`: element, optional size expression, optional unit,
type-name list. -/
structure BinarySeg (α : Type) where
  elem : α
  size : Option ExprId
  unit : Option Int
  tys : List String
deriving DecidableEq, Repr

/-- `crate::CallTarget`. -/
inductive CallTarget where
  | Local (name : ExprId)
  | Remote (module : ExprId) (name : ExprId)
deriving DecidableEq, Repr

/-- `crate::Expr`, restricted to the variants the modelled grammar
produces. -/
inductive Expr where
  | missing
  | literal (l : Literal)
  | var (v : String)
  | tuple (exprs : List ExprId)
  | list (exprs : List ExprId) (tail : Option ExprId)
  | map (fields : List (ExprId × ExprId))
  | binary (segs : List (BinarySeg ExprId))
  | call (target : CallTarget) (args : List ExprId)
  | macroCall (expansion : ExprId) (args : List ExprId)
deriving DecidableEq, Repr

/-- `crate::Pat`, restricted likewise. -/
inductive Pat where
  | missing
  | literal (l : Literal)
  | var (v : String)
  | tuple (pats : List PatId)
  | list (pats : List PatId) (tail : Option PatId)
  | map (fields : List (ExprId × PatId))
  | binary (segs : List (BinarySeg PatId))
  | macroCall (expansion : PatId) (args : List ExprId)
deriving DecidableEq, Repr

/-- `crate::Term`, restricted likewise (`Term::Binary` holds folded
constant bytes). -/
inductive Term where
  | missing
  | literal (l : Literal)
  | binary (value : List Nat)
  | tuple (exprs : List TermId)
  | list (exprs : List TermId) (tail : Option TermId)
  | map (fields : List (TermId × TermId))
  | macroCall (expansion : TermId) (args : List ExprId)
deriving DecidableEq, Repr

/-- `crate::MacroName`: name plus optional arity. -/
structure MacroName where
  name : String
  arity : Option Nat
deriving DecidableEq, Repr

/-- `MacroStackEntry` (lower.rs, lines 72-77).  The caller-argument map is
an association list; `varMapFind` below gives it hash-map (last insert
wins) lookup semantics. -/
structure MacroStackEntry where
  name : MacroName
  fileId : FileId
  varMap : List (String × AstMacroArg)
  parentId : Nat

/-- `Ctx` (lower.rs, lines 79-87).  The `db` handle is factored out into
`Env` below; the four arenas of `Body` are the three lists here
(`type_exprs` is omitted: no claim mentions TypeExpr lowering), and the
`BodySourceMap` recording is omitted (no claim depends on it). -/
structure Ctx where
  originalFileId : FileId
  macroStack : List MacroStackEntry
  macroStackId : Nat
  functionInfo : Option (String × Nat)
  exprs : List Expr
  pats : List Pat
  terms : List Term

/-- The name of the sentinel frame: `MacroName::new(Name::MISSING, None)`. -/
def missingName : MacroName := ⟨"[missing name]", none⟩

/-- `Ctx::new` (lower.rs, lines 98-113): one sentinel frame for the file
itself. -/
def Ctx.new (fileId : FileId) : Ctx :=
  { originalFileId := fileId
    macroStack := [⟨missingName, fileId, [], 0⟩]
    macroStackId := 0
    functionInfo := none
    exprs := []
    pats := []
    terms := [] }

/-- `BuiltInMacro` (crate::macro_exp). -/
inductive BuiltInMacroKind where
  | file
  | functionName
  | functionArity
  | line
  | module
  | moduleString
  | machine
  | otpRelease
deriving DecidableEq, Repr

/-- `crate::ResolvedMacro`: a builtin tag or a pointer to a user
`-define` form (the `InFile<DefineId>` is abstracted to an index into
`Env.defines`, which carries the defining file id). -/
inductive MacroResolution where
  | builtIn (b : BuiltInMacroKind)
  | user (d : Nat)
deriving DecidableEq, Repr

/-- `ast::MacroDefReplacement`, split into the expression replacement the
lowering expands and every other replacement kind (clause lists etc.),
which the expression/pattern/term callbacks reject. -/
inductive MacroReplacementAst where
  | expr (e : AstExpr)
  | other

/-- One user `-define` form as `enter_macro` reads it via
`file_form_list` and `parse`: the defining file, the formal parameter
names, and the optional replacement body. -/
structure MacroDefine where
  fileId : FileId
  params : List String
  replacement : Option MacroReplacementAst

/-- The database facts the lowering reads: `db.resolve_macro`, the define
forms, and the module attribute of the original file (used by builtin
macros). -/
structure Env where
  resolveMacroDb : FileId → MacroName → Option MacroResolution
  defines : Nat → MacroDefine
  moduleAttr : Option String

/-- `Ctx::lower_built_in_macro` (lower.rs, lines 2108-2140): builtins are
resolved to literal constants from context available at lowering time;
`LINE` and `OTP_RELEASE` are fixed placeholder values. -/
def lowerBuiltIn (env : Env) (ctx : Ctx) : BuiltInMacroKind → Option Literal
  | .file => env.moduleAttr.map (fun n => .string (n ++ ".erl"))
  | .functionName => ctx.functionInfo.map (fun p => .atom p.1)
  | .functionArity => ctx.functionInfo.map (fun p => .integer p.2)
  | .line => some (.integer 0)
  | .module => env.moduleAttr.map (fun n => .atom n)
  | .moduleString => env.moduleAttr.map (fun n => .string n)
  | .machine => some (.atom "ELP")
  | .otpRelease => some (.integer 2000)

/-- The active-frame chain of `Ctx::macro_stack` (lower.rs, lines
2243-2251): the current frame, then parents while `parent_id != 0`.  In
every reachable state a frame's parent index is strictly below its own,
so the chain length is bounded by the index; the fuel makes the walk
total. -/
def macroStackChainAux (stack : List MacroStackEntry) : Nat → Nat → List MacroStackEntry
  | 0, i => (stack.get? i).toList
  | f + 1, i =>
    match stack.get? i with
    | none => []
    | some e => if e.parentId = 0 then [e] else e :: macroStackChainAux stack f e.parentId

def macroStackChain (ctx : Ctx) : List MacroStackEntry :=
  macroStackChainAux ctx.macroStack ctx.macroStack.length ctx.macroStackId

/-- Modelled from the spec: `macro_exp::macro_name` (crate::macro_exp is
not among the reviewed sources) — a call's macro name with its arity
taken from the explicit argument list when present ("a macro name with
optional arity", spec 4.2). -/
def macroNameOf (name : String) (args : Option (List AstMacroArg)) : MacroName :=
  ⟨name, args.map List.length⟩

/-- Hash-map (last insert wins) lookup in a frame's caller-argument map. -/
def varMapFind (vm : List (String × AstMacroArg)) (v : String) : Option AstMacroArg :=
  vm.foldl (fun acc p => if p.1 = v then some p.2 else acc) none

/-- `define.args().zip(args.args())` of `enter_macro`. -/
def mkVarMap (params : List String) (args : List AstMacroArg) :
    List (String × AstMacroArg) :=
  params.zip args

/-- Push one macro expansion frame (`enter_macro`, lower.rs lines
2226-2233): the entry's parent is the current frame index, and the new
frame becomes current. -/
def pushFrame (ctx : Ctx) (name : MacroName) (fileId : FileId)
    (varMap : List (String × AstMacroArg)) : Ctx :=
  { ctx with
    macroStack := ctx.macroStack ++ [⟨name, fileId, varMap, ctx.macroStackId⟩]
    macroStackId := ctx.macroStack.length }

/-- Pop the matching frame (`enter_macro`, lower.rs lines 2237-2238),
restoring the parent as current.  The stack cannot be empty here: a pop
always pairs a push (Rust panics otherwise). -/
def popFrame (ctx : Ctx) : Ctx :=
  match ctx.macroStack.getLast? with
  | some e =>
    { ctx with macroStack := ctx.macroStack.dropLast, macroStackId := e.parentId }
  | none => ctx

/-- The control-flow outcome of `Ctx::resolve_macro` (lower.rs, lines
2160-2202), defunctionalized: `refused` is the active-frame check
(the callback is never run and `None` is returned), `failed` covers both
lookups failing or a missing argument list on retry, the remaining
variants say which callback case runs (`user`/`userRetry` additionally
enter the define's frame; the retry variants correspond to
`BuiltInArgs`/`AstArgs`). -/
inductive MacroCallDecision where
  | refused
  | failed
  | builtIn (b : BuiltInMacroKind)
  | user (d : Nat) (args : Option (List AstMacroArg))
  | builtInRetry (b : BuiltInMacroKind) (args : List AstMacroArg)
  | userRetry (d : Nat) (args : List AstMacroArg)

def resolveMacroDecision (env : Env) (ctx : Ctx) (name : String)
    (args : Option (List AstMacroArg)) : MacroCallDecision :=
  let mname := macroNameOf name args
  if (macroStackChain ctx).any (fun e => e.name == mname) then
    .refused
  else
    match env.resolveMacroDb ctx.originalFileId mname with
    | some (.builtIn b) => .builtIn b
    | some (.user d) => .user d args
    | none =>
      match args with
      | none => .failed
      | some argList =>
        match env.resolveMacroDb ctx.originalFileId ⟨name, none⟩ with
        | none => .failed
        | some (.builtIn b) => .builtInRetry b argList
        | some (.user d) => .userRetry d argList

-- The lowering computation: state-passing over `Ctx`, with `none` marking
-- exhaustion of the recursion fuel that makes the embedding total (the
-- Rust functions have no fuel; the relevant claims quantify over it or
-- exhibit enough of it).

abbrev LowerM := StateT Ctx Option

/-- Fuel exhaustion. -/
def failFuel {α : Type} : LowerM α := fun _ => none

def getCtx : LowerM Ctx := fun ctx => some (ctx, ctx)

/-- `Ctx::alloc_expr` (lower.rs, lines 2274-2282) without the source-map
recording: arena append returning the new id. -/
def allocExpr (e : Expr) : LowerM ExprId := fun ctx =>
  some (ctx.exprs.length, { ctx with exprs := ctx.exprs ++ [e] })

/-- `Ctx::alloc_pat` (lower.rs, lines 2289-2297). -/
def allocPat (p : Pat) : LowerM PatId := fun ctx =>
  some (ctx.pats.length, { ctx with pats := ctx.pats ++ [p] })

/-- `Ctx::alloc_term` (lower.rs, lines 2319-2327). -/
def allocTerm (t : Term) : LowerM TermId := fun ctx =>
  some (ctx.terms.length, { ctx with terms := ctx.terms ++ [t] })

/-- `self.body[expr_id]` (arena read; always in range in reachable
states). -/
def readExpr (i : ExprId) : LowerM Expr := fun ctx =>
  some (ctx.exprs.getD i .missing, ctx)

def readTerm (i : TermId) : LowerM Term := fun ctx =>
  some (ctx.terms.getD i .missing, ctx)

/-- The hygiene scope switch of `Ctx::resolve_var` (lower.rs, lines
2260-2267): run the sub-lowering with the current-frame index rewound to
the parent frame, then restore the saved index. -/
def withParentScope {α : Type} (parentId : Nat) (m : LowerM α) : LowerM α :=
  fun ctx =>
    match m { ctx with macroStackId := parentId } with
    | none => none
    | some (a, ctx') => some (a, { ctx' with macroStackId := ctx.macroStackId })

/-- The frame push/pop bracket of `Ctx::enter_macro` (lower.rs, lines
2226-2238) around the callback. -/
def withNewFrame {α : Type} (name : MacroName) (fileId : FileId)
    (varMap : List (String × AstMacroArg)) (m : LowerM α) : LowerM α :=
  fun ctx =>
    match m (pushFrame ctx name fileId varMap) with
    | none => none
    | some (a, ctx') => some (a, popFrame ctx')

/-- The current frame, `&self.macro_stack[self.macro_stack_id]`
(`Ctx::resolve_var`, lower.rs line 2259; the index is always in range in
reachable states, the default is never used). -/
def currentEntry (ctx : Ctx) : MacroStackEntry :=
  ctx.macroStack.getD ctx.macroStackId ⟨missingName, ctx.originalFileId, [], 0⟩

mutual

/-- `Ctx::lower_expr` and `Ctx::lower_expr_max` (lower.rs, lines 700-865
and 920-1239), on the modelled sub-grammar. -/
def lowerExpr (env : Env) : Nat → AstExpr → LowerM ExprId
  | 0, _ => failFuel
  | f + 1, e =>
    match e with
    | .atom s => allocExpr (.literal (.atom s))
    | .int n => allocExpr (.literal (.integer n))
    | .char c => allocExpr (.literal (.char c))
    | .str s => allocExpr (.literal (.string s))
    | .var v => do
      let ctx ← getCtx
      match varMapFind (currentEntry ctx).varMap v with
      | some arg =>
        withParentScope (currentEntry ctx).parentId (lowerOptionalExpr env f arg.e)
      | none => allocExpr (.var v)
    | .tuple es => do
      let ids ← lowerExprs env f es
      allocExpr (.tuple ids)
    | .list es => do
      let (ids, tail) ← lowerListItemsExpr env f es [] none
      allocExpr (.list ids tail)
    | .pipe lhs rhs => do
      let _ ← lowerOptionalExpr env f lhs
      let _ ← lowerOptionalExpr env f rhs
      allocExpr .missing
    | .paren pe =>
      match pe with
      | some inner => lowerExpr env f inner
      | none => allocExpr .missing
    | .call tgt args => do
      let target ← lowerCallTarget env f tgt
      let ids ← lowerExprs env f (args.getD [])
      allocExpr (.call target ids)
    | .mapLit fields => do
      let fs ← lowerMapFieldsExpr env f fields []
      allocExpr (.map fs)
    | .binLit els => do
      let segs ← lowerBinSegsExpr env f els []
      allocExpr (.binary segs)
    | .macroCall name args => do
      let ctx ← getCtx
      match resolveMacroDecision env ctx name args with
      | .refused => fallbackMacroExpr env f args
      | .failed => fallbackMacroExpr env f args
      | .builtIn b =>
        match lowerBuiltIn env ctx b with
        | some lit => do
          let eid ← allocExpr (.literal lit)
          wrapMacroExpansionExpr env f eid args
        | none => fallbackMacroExpr env f args
      | .user d dargs =>
        match (env.defines d).replacement with
        | none => fallbackMacroExpr env f args
        | some (.expr mexpr) => do
          let eid ← withNewFrame (macroNameOf name args) (env.defines d).fileId
            (mkVarMap (env.defines d).params (dargs.getD []))
            (lowerExpr env f mexpr)
          wrapMacroExpansionExpr env f eid args
        | some .other => do
          let _ ← withNewFrame (macroNameOf name args) (env.defines d).fileId
            (mkVarMap (env.defines d).params (dargs.getD []))
            (pure ())
          fallbackMacroExpr env f args
      | .builtInRetry b argList => do
        let nameId ←
          match lowerBuiltIn env ctx b with
          | some lit => allocExpr (.literal lit)
          | none => allocExpr .missing
        let argIds ← lowerMacroCallArgs env f argList
        let cid ← allocExpr (.call (.Local nameId) argIds)
        wrapMacroExpansionExpr env f cid args
      | .userRetry d argList =>
        match (env.defines d).replacement with
        | none => fallbackMacroExpr env f args
        | some repl => do
          let cid? ← withNewFrame ⟨name, none⟩ (env.defines d).fileId []
            (match repl with
             | .expr mexpr => do
               let target ← lowerCallTarget env f (some mexpr)
               let argIds ← lowerMacroCallArgs env f argList
               let cid ← allocExpr (.call target argIds)
               pure (some cid)
             | .other => pure (none : Option ExprId))
          match cid? with
          | some cid => wrapMacroExpansionExpr env f cid args
          | none => fallbackMacroExpr env f args

/-- `Ctx::lower_optional_expr` (lower.rs, lines 692-698). -/
def lowerOptionalExpr (env : Env) : Nat → Option AstExpr → LowerM ExprId
  | 0, _ => failFuel
  | f + 1, some e => lowerExpr env f e
  | _ + 1, none => allocExpr .missing

/-- Elementwise expression lowering of an argument/element list. -/
def lowerExprs (env : Env) : Nat → List AstExpr → LowerM (List ExprId)
  | 0, _ => failFuel
  | _ + 1, [] => pure []
  | f + 1, e :: rest => do
    let i ← lowerExpr env f e
    let is ← lowerExprs env f rest
    pure (i :: is)

/-- `Ctx::lower_call_target` (lower.rs, lines 867-918), on the modelled
sub-grammar (`Remote` targets have no modelled syntax). -/
def lowerCallTarget (env : Env) : Nat → Option AstExpr → LowerM CallTarget
  | 0, _ => failFuel
  | f + 1, some (.paren pe) => lowerCallTarget env f pe
  | f + 1, some (.macroCall name args) => do
    let ctx ← getCtx
    match resolveMacroDecision env ctx name args with
    | .refused => fallbackCallTarget env f args
    | .failed => fallbackCallTarget env f args
    | .builtIn b =>
      match lowerBuiltIn env ctx b with
      | some lit => do
        let nid ← allocExpr (.literal lit)
        pure (CallTarget.Local nid)
      | none => fallbackCallTarget env f args
    | .user d dargs =>
      match (env.defines d).replacement with
      | none => fallbackCallTarget env f args
      | some (.expr mexpr) =>
        withNewFrame (macroNameOf name args) (env.defines d).fileId
          (mkVarMap (env.defines d).params (dargs.getD []))
          (lowerCallTarget env f (some mexpr))
      | some .other => do
        let _ ← withNewFrame (macroNameOf name args) (env.defines d).fileId
          (mkVarMap (env.defines d).params (dargs.getD []))
          (pure ())
        fallbackCallTarget env f args
    | .builtInRetry _ _ => fallbackCallTarget env f args
    | .userRetry d _ =>
      match (env.defines d).replacement with
      | none => fallbackCallTarget env f args
      | some _ => do
        let _ ← withNewFrame ⟨name, none⟩ (env.defines d).fileId [] (pure ())
        fallbackCallTarget env f args
  | f + 1, some e => do
    let i ← lowerExpr env f e
    pure (CallTarget.Local i)
  | _ + 1, none => do
    let i ← allocExpr .missing
    pure (CallTarget.Local i)

/-- The `unwrap_or_else` fallback of the macro arm of `lower_call_target`
(lower.rs, lines 898-910): lower the raw arguments, then a `Local` target
on a fresh missing node. -/
def fallbackCallTarget (env : Env) : Nat → Option (List AstMacroArg) → LowerM CallTarget
  | 0, _ => failFuel
  | f + 1, args => do
    fallbackArgsExpr env f (args.getD [])
    let i ← allocExpr .missing
    pure (CallTarget.Local i)

/-- `Ctx::lower_list` (lower.rs, lines 1262-1290) specialised to
expressions: the accumulating loop over the list's item expressions.  A
`Pipe` item lowers its head, demotes a previously recorded tail into the
sequence (the `TODO: add error` tolerance), and records its own spliced
tail as current. -/
def lowerListItemsExpr (env : Env) :
    Nat → List AstExpr → List ExprId → Option ExprId →
    LowerM (List ExprId × Option ExprId)
  | 0, _, _, _ => failFuel
  | _ + 1, [], ids, tail => pure (ids, tail)
  | f + 1, item :: rest, ids, tail =>
    match item with
    | .pipe lhs rhs => do
      let i ←
        match lhs with
        | some l => lowerExpr env f l
        | none => allocExpr .missing
      let ids1 := ids ++ [i]
      let ids2 :=
        match tail with
        | some t => ids1 ++ [t]
        | none => ids1
      let newTail ←
        match rhs with
        | some r => do
          let t ← lowerExpr env f r
          pure (some t)
        | none => pure (none : Option ExprId)
      lowerListItemsExpr env f rest ids2 newTail
    | _ => do
      let i ← lowerExpr env f item
      lowerListItemsExpr env f rest (ids ++ [i]) tail

/-- The map-literal field loop of `lower_expr` (lower.rs, lines 731-744):
keys and values are lowered as expressions, and only fields whose
operator is `Assoc` are kept. -/
def lowerMapFieldsExpr (env : Env) :
    Nat → List AstMapField → List (ExprId × ExprId) →
    LowerM (List (ExprId × ExprId))
  | 0, _, _ => failFuel
  | _ + 1, [], acc => pure acc
  | f + 1, fld :: rest, acc => do
    let k ← lowerOptionalExpr env f fld.key
    let v ← lowerOptionalExpr env f fld.value
    let acc' :=
      match fld.op with
      | some .assoc => acc ++ [(k, v)]
      | _ => acc
    lowerMapFieldsExpr env f rest acc'

/-- The binary-segment loop of `lower_expr` (lower.rs, lines 951-956),
each segment through `Ctx::lower_bin_element` (lines 1292-1323) with the
element lowered as an expression. -/
def lowerBinSegsExpr (env : Env) :
    Nat → List AstBinElement → List (BinarySeg ExprId) →
    LowerM (List (BinarySeg ExprId))
  | 0, _, _ => failFuel
  | _ + 1, [], acc => pure acc
  | f + 1, el :: rest, acc => do
    let elemId ← lowerOptionalExpr env f el.element
    let sizeId ←
      match el.size with
      | some se => do
        let i ← lowerExpr env f se
        pure (some i)
      | none => pure (none : Option ExprId)
    let (tys, unit) ← lowerBitTypes env f el.types [] none
    lowerBinSegsExpr env f rest (acc ++ [⟨elemId, sizeId, unit, tys⟩])

/-- The bit-type loop of `Ctx::lower_bin_element` (lower.rs, lines
1303-1315): names resolve to atoms and accumulate, each `BitTypeUnit`
overwrites the unit with its resolved arity. -/
def lowerBitTypes (env : Env) :
    Nat → List AstBitType → List String → Option Int →
    LowerM (List String × Option Int)
  | 0, _, _, _ => failFuel
  | _ + 1, [], tys, unit => pure (tys, unit)
  | f + 1, bt :: rest, tys, unit =>
    match bt with
    | .name n => do
      let a? ← resolveName env f n
      match a? with
      | some a => lowerBitTypes env f rest (tys ++ [a]) unit
      | none => lowerBitTypes env f rest tys unit
    | .unitSize sz => do
      let u ←
        match sz with
        | some se => resolveArity env f se
        | none => pure (none : Option Int)
      lowerBitTypes env f rest tys u

/-- `Ctx::resolve_name` (lower.rs, lines 2142-2149): lower as an
expression and keep only an atom literal result. -/
def resolveName (env : Env) : Nat → AstExpr → LowerM (Option String)
  | 0, _ => failFuel
  | f + 1, n => do
    let eid ← lowerExpr env f n
    let e ← readExpr eid
    match e with
    | .literal (.atom a) => pure (some a)
    | _ => pure (none : Option String)

/-- `Ctx::resolve_arity` (lower.rs, lines 2151-2158): lower as an
expression and keep only an integer literal result. -/
def resolveArity (env : Env) : Nat → AstExpr → LowerM (Option Int)
  | 0, _ => failFuel
  | f + 1, a => do
    let eid ← lowerExpr env f a
    let e ← readExpr eid
    match e with
    | .literal (.integer n) => pure (some n)
    | _ => pure (none : Option Int)

/-- The argument lowering of a successful macro expansion's wrapper
(e.g. lower.rs, lines 1105-1110): each call argument's expression is
lowered with `lower_optional_expr`, in every mode. -/
def lowerMacroCallArgs (env : Env) : Nat → List AstMacroArg → LowerM (List ExprId)
  | 0, _ => failFuel
  | _ + 1, [] => pure []
  | f + 1, arg :: rest => do
    let i ← lowerOptionalExpr env f arg.e
    let is ← lowerMacroCallArgs env f rest
    pure (i :: is)

/-- The `.map(|expansion| ...)` wrapper of the expression macro arm
(lower.rs, lines 1104-1113): lower the call arguments and allocate the
`Expr::MacroCall` residue node. -/
def wrapMacroExpansionExpr (env : Env) :
    Nat → ExprId → Option (List AstMacroArg) → LowerM ExprId
  | 0, _, _ => failFuel
  | f + 1, expansion, args => do
    let argIds ← lowerMacroCallArgs env f (args.getD [])
    allocExpr (.macroCall expansion argIds)

/-- The raw-argument lowering of the expression fallback (lower.rs, lines
1115-1122): each argument's expression and guard are lowered in place. -/
def fallbackArgsExpr (env : Env) : Nat → List AstMacroArg → LowerM Unit
  | 0, _ => failFuel
  | _ + 1, [] => pure ()
  | f + 1, arg :: rest => do
    let _ ← lowerOptionalExpr env f arg.e
    let _ ← lowerOptionalExpr env f arg.guard
    fallbackArgsExpr env f rest

/-- The `unwrap_or_else` fallback of the expression macro arm (lower.rs,
lines 1114-1124): lower the raw arguments in place, then the call site
becomes the explicit missing node. -/
def fallbackMacroExpr (env : Env) : Nat → Option (List AstMacroArg) → LowerM ExprId
  | 0, _ => failFuel
  | f + 1, args => do
    fallbackArgsExpr env f (args.getD [])
    allocExpr .missing

/-- `Ctx::lower_pat` and `Ctx::lower_pat_max` (lower.rs, lines 318-452
and 454-690), on the modelled sub-grammar. -/
def lowerPat (env : Env) : Nat → AstExpr → LowerM PatId
  | 0, _ => failFuel
  | f + 1, e =>
    match e with
    | .atom s => allocPat (.literal (.atom s))
    | .int n => allocPat (.literal (.integer n))
    | .char c => allocPat (.literal (.char c))
    | .str s => allocPat (.literal (.string s))
    | .var v => do
      let ctx ← getCtx
      match varMapFind (currentEntry ctx).varMap v with
      | some arg =>
        withParentScope (currentEntry ctx).parentId (lowerOptionalPat env f arg.e)
      | none => allocPat (.var v)
    | .tuple es => do
      let ps ← lowerPats env f es
      allocPat (.tuple ps)
    | .list es => do
      let (ps, tail) ← lowerListItemsPat env f es [] none
      allocPat (.list ps tail)
    | .pipe lhs rhs => do
      let _ ← lowerOptionalPat env f lhs
      let _ ← lowerOptionalPat env f rhs
      allocPat .missing
    | .paren pe =>
      match pe with
      | some inner => lowerPat env f inner
      | none => allocPat .missing
    | .call tgt args => do
      let _ ← lowerOptionalPat env f tgt
      let _ ← lowerPats env f (args.getD [])
      allocPat .missing
    | .mapLit fields => do
      let fs ← lowerMapFieldsPat env f fields []
      allocPat (.map fs)
    | .binLit els => do
      let segs ← lowerBinSegsPat env f els []
      allocPat (.binary segs)
    | .macroCall name args => do
      let ctx ← getCtx
      match resolveMacroDecision env ctx name args with
      | .refused => fallbackMacroPat env f args
      | .failed => fallbackMacroPat env f args
      | .builtIn b =>
        match lowerBuiltIn env ctx b with
        | some lit => do
          let pid ← allocPat (.literal lit)
          wrapMacroExpansionPat env f pid args
        | none => fallbackMacroPat env f args
      | .user d dargs =>
        match (env.defines d).replacement with
        | none => fallbackMacroPat env f args
        | some (.expr mexpr) => do
          let pid ← withNewFrame (macroNameOf name args) (env.defines d).fileId
            (mkVarMap (env.defines d).params (dargs.getD []))
            (lowerPat env f mexpr)
          wrapMacroExpansionPat env f pid args
        | some .other => do
          let _ ← withNewFrame (macroNameOf name args) (env.defines d).fileId
            (mkVarMap (env.defines d).params (dargs.getD []))
            (pure ())
          fallbackMacroPat env f args
      | .builtInRetry _ _ => fallbackMacroPat env f args
      | .userRetry d _ =>
        match (env.defines d).replacement with
        | none => fallbackMacroPat env f args
        | some _ => do
          let _ ← withNewFrame ⟨name, none⟩ (env.defines d).fileId [] (pure ())
          fallbackMacroPat env f args

/-- `Ctx::lower_optional_pat`. -/
def lowerOptionalPat (env : Env) : Nat → Option AstExpr → LowerM PatId
  | 0, _ => failFuel
  | f + 1, some e => lowerPat env f e
  | _ + 1, none => allocPat .missing

/-- Elementwise pattern lowering of a list. -/
def lowerPats (env : Env) : Nat → List AstExpr → LowerM (List PatId)
  | 0, _ => failFuel
  | _ + 1, [] => pure []
  | f + 1, e :: rest => do
    let i ← lowerPat env f e
    let is ← lowerPats env f rest
    pure (i :: is)

/-- `Ctx::lower_list` specialised to patterns (lower.rs, lines 555-561). -/
def lowerListItemsPat (env : Env) :
    Nat → List AstExpr → List PatId → Option PatId →
    LowerM (List PatId × Option PatId)
  | 0, _, _, _ => failFuel
  | _ + 1, [], ids, tail => pure (ids, tail)
  | f + 1, item :: rest, ids, tail =>
    match item with
    | .pipe lhs rhs => do
      let i ←
        match lhs with
        | some l => lowerPat env f l
        | none => allocPat .missing
      let ids1 := ids ++ [i]
      let ids2 :=
        match tail with
        | some t => ids1 ++ [t]
        | none => ids1
      let newTail ←
        match rhs with
        | some r => do
          let t ← lowerPat env f r
          pure (some t)
        | none => pure (none : Option PatId)
      lowerListItemsPat env f rest ids2 newTail
    | _ => do
      let i ← lowerPat env f item
      lowerListItemsPat env f rest (ids ++ [i]) tail

/-- The map-literal field loop of `lower_pat` (lower.rs, lines 350-363):
keys are lowered as expressions, values as patterns, and only fields
whose operator is `Exact` are kept. -/
def lowerMapFieldsPat (env : Env) :
    Nat → List AstMapField → List (ExprId × PatId) →
    LowerM (List (ExprId × PatId))
  | 0, _, _ => failFuel
  | _ + 1, [], acc => pure acc
  | f + 1, fld :: rest, acc => do
    let k ← lowerOptionalExpr env f fld.key
    let v ← lowerOptionalPat env f fld.value
    let acc' :=
      match fld.op with
      | some .exact => acc ++ [(k, v)]
      | _ => acc
    lowerMapFieldsPat env f rest acc'

/-- The binary-segment loop of `lower_pat` (lower.rs, lines 474-479). -/
def lowerBinSegsPat (env : Env) :
    Nat → List AstBinElement → List (BinarySeg PatId) →
    LowerM (List (BinarySeg PatId))
  | 0, _, _ => failFuel
  | _ + 1, [], acc => pure acc
  | f + 1, el :: rest, acc => do
    let elemId ← lowerOptionalPat env f el.element
    let sizeId ←
      match el.size with
      | some se => do
        let i ← lowerExpr env f se
        pure (some i)
      | none => pure (none : Option ExprId)
    let (tys, unit) ← lowerBitTypes env f el.types [] none
    lowerBinSegsPat env f rest (acc ++ [⟨elemId, sizeId, unit, tys⟩])

/-- The `.map(|expansion| ...)` wrapper of the pattern macro arm
(lower.rs, lines 588-597): call arguments lower as expressions. -/
def wrapMacroExpansionPat (env : Env) :
    Nat → PatId → Option (List AstMacroArg) → LowerM PatId
  | 0, _, _ => failFuel
  | f + 1, expansion, args => do
    let argIds ← lowerMacroCallArgs env f (args.getD [])
    allocPat (.macroCall expansion argIds)

/-- The raw-argument lowering of the pattern fallback (lower.rs, lines
599-606). -/
def fallbackArgsPat (env : Env) : Nat → List AstMacroArg → LowerM Unit
  | 0, _ => failFuel
  | _ + 1, [] => pure ()
  | f + 1, arg :: rest => do
    let _ ← lowerOptionalPat env f arg.e
    let _ ← lowerOptionalPat env f arg.guard
    fallbackArgsPat env f rest

/-- The `unwrap_or_else` fallback of the pattern macro arm (lower.rs,
lines 598-607). -/
def fallbackMacroPat (env : Env) : Nat → Option (List AstMacroArg) → LowerM PatId
  | 0, _ => failFuel
  | f + 1, args => do
    fallbackArgsPat env f (args.getD [])
    allocPat .missing

/-- `Ctx::lower_term` and `Ctx::lower_term_max` (lower.rs, lines
1781-1909 and 1912-2106), on the modelled sub-grammar. -/
def lowerTerm (env : Env) : Nat → AstExpr → LowerM TermId
  | 0, _ => failFuel
  | f + 1, e =>
    match e with
    | .atom s => allocTerm (.literal (.atom s))
    | .int n => allocTerm (.literal (.integer n))
    | .char c => allocTerm (.literal (.char c))
    | .str s => allocTerm (.literal (.string s))
    | .var v => do
      let ctx ← getCtx
      match varMapFind (currentEntry ctx).varMap v with
      | some arg =>
        withParentScope (currentEntry ctx).parentId (lowerOptionalTerm env f arg.e)
      | none => allocTerm .missing
    | .tuple es => do
      let ids ← lowerTerms env f es
      allocTerm (.tuple ids)
    | .list es => do
      let (ids, tail) ← lowerListItemsTerm env f es [] none
      allocTerm (.list ids tail)
    | .pipe lhs rhs => do
      let _ ← lowerOptionalTerm env f lhs
      let _ ← lowerOptionalTerm env f rhs
      allocTerm .missing
    | .paren pe =>
      match pe with
      | some inner => lowerTerm env f inner
      | none => allocTerm .missing
    | .call tgt args => do
      let _ ← lowerOptionalTerm env f tgt
      let _ ← lowerTerms env f (args.getD [])
      allocTerm .missing
    | .mapLit fields => do
      let fs ← lowerMapFieldsTerm env f fields []
      allocTerm (.map fs)
    | .binLit els => do
      let value ← lowerBinFoldTerm env f els (.binary [])
      allocTerm value
    | .macroCall name args => do
      let ctx ← getCtx
      match resolveMacroDecision env ctx name args with
      | .refused => fallbackMacroTerm env f args
      | .failed => fallbackMacroTerm env f args
      | .builtIn b =>
        match lowerBuiltIn env ctx b with
        | some lit => do
          let tid ← allocTerm (.literal lit)
          wrapMacroExpansionTerm env f tid args
        | none => fallbackMacroTerm env f args
      | .user d dargs =>
        match (env.defines d).replacement with
        | none => fallbackMacroTerm env f args
        | some (.expr mexpr) => do
          let tid ← withNewFrame (macroNameOf name args) (env.defines d).fileId
            (mkVarMap (env.defines d).params (dargs.getD []))
            (lowerTerm env f mexpr)
          wrapMacroExpansionTerm env f tid args
        | some .other => do
          let _ ← withNewFrame (macroNameOf name args) (env.defines d).fileId
            (mkVarMap (env.defines d).params (dargs.getD []))
            (pure ())
          fallbackMacroTerm env f args
      | .builtInRetry _ _ => fallbackMacroTerm env f args
      | .userRetry d _ =>
        match (env.defines d).replacement with
        | none => fallbackMacroTerm env f args
        | some _ => do
          let _ ← withNewFrame ⟨name, none⟩ (env.defines d).fileId [] (pure ())
          fallbackMacroTerm env f args

/-- `Ctx::lower_optional_term` (lower.rs, lines 1773-1779). -/
def lowerOptionalTerm (env : Env) : Nat → Option AstExpr → LowerM TermId
  | 0, _ => failFuel
  | f + 1, some e => lowerTerm env f e
  | _ + 1, none => allocTerm .missing

/-- Elementwise term lowering of a list. -/
def lowerTerms (env : Env) : Nat → List AstExpr → LowerM (List TermId)
  | 0, _ => failFuel
  | _ + 1, [] => pure []
  | f + 1, e :: rest => do
    let i ← lowerTerm env f e
    let is ← lowerTerms env f rest
    pure (i :: is)

/-- `Ctx::lower_list` specialised to terms (lower.rs, lines 2025-2031). -/
def lowerListItemsTerm (env : Env) :
    Nat → List AstExpr → List TermId → Option TermId →
    LowerM (List TermId × Option TermId)
  | 0, _, _, _ => failFuel
  | _ + 1, [], ids, tail => pure (ids, tail)
  | f + 1, item :: rest, ids, tail =>
    match item with
    | .pipe lhs rhs => do
      let i ←
        match lhs with
        | some l => lowerTerm env f l
        | none => allocTerm .missing
      let ids1 := ids ++ [i]
      let ids2 :=
        match tail with
        | some t => ids1 ++ [t]
        | none => ids1
      let newTail ←
        match rhs with
        | some r => do
          let t ← lowerTerm env f r
          pure (some t)
        | none => pure (none : Option TermId)
      lowerListItemsTerm env f rest ids2 newTail
    | _ => do
      let i ← lowerTerm env f item
      lowerListItemsTerm env f rest (ids ++ [i]) tail

/-- The map-literal field loop of `lower_term` (lower.rs, lines
1820-1833): keys and values lower as terms, `Assoc` fields are kept. -/
def lowerMapFieldsTerm (env : Env) :
    Nat → List AstMapField → List (TermId × TermId) →
    LowerM (List (TermId × TermId))
  | 0, _, _ => failFuel
  | _ + 1, [], acc => pure acc
  | f + 1, fld :: rest, acc => do
    let k ← lowerOptionalTerm env f fld.key
    let v ← lowerOptionalTerm env f fld.value
    let acc' :=
      match fld.op with
      | some .assoc => acc ++ [(k, v)]
      | _ => acc
    lowerMapFieldsTerm env f rest acc'

/-- The constant-folding fold over binary segments of `lower_term_max`
(lower.rs, lines 1919-1957): each segment is lowered through
`lower_bin_element` with a term element; a segment with no size, no unit
and no type qualifiers whose element is a char/integer/string literal
appends its bytes (with Rust's `as u8` truncation), anything else turns
the accumulator to `Missing`, which is then absorbing. -/
def lowerBinFoldTerm (env : Env) :
    Nat → List AstBinElement → Term → LowerM Term
  | 0, _, _ => failFuel
  | _ + 1, [], acc => pure acc
  | f + 1, el :: rest, acc => do
    let elemId ← lowerOptionalTerm env f el.element
    let sizeId ←
      match el.size with
      | some se => do
        let i ← lowerExpr env f se
        pure (some i)
      | none => pure (none : Option ExprId)
    let (tys, unit) ← lowerBitTypes env f el.types [] none
    let elemTerm ← readTerm elemId
    let acc' :=
      match acc with
      | .binary vec =>
        if sizeId.isNone && unit.isNone && tys.isEmpty then
          match elemTerm with
          | .literal (.char ch) => Term.binary (vec ++ [ch.toNat % 256])
          | .literal (.integer n) => Term.binary (vec ++ [(n % 256).toNat])
          | .literal (.string s) =>
            Term.binary (vec ++ s.toList.map (fun ch => ch.toNat % 256))
          | _ => Term.missing
        else Term.missing
      | _ => Term.missing
    lowerBinFoldTerm env f rest acc'

/-- The `.map(|expansion| ...)` wrapper of the term macro arm
(lower.rs, lines 2051-2060): call arguments lower as expressions. -/
def wrapMacroExpansionTerm (env : Env) :
    Nat → TermId → Option (List AstMacroArg) → LowerM TermId
  | 0, _, _ => failFuel
  | f + 1, expansion, args => do
    let argIds ← lowerMacroCallArgs env f (args.getD [])
    allocTerm (.macroCall expansion argIds)

/-- The raw-argument lowering of the term fallback (lower.rs, lines
2062-2069). -/
def fallbackArgsTerm (env : Env) : Nat → List AstMacroArg → LowerM Unit
  | 0, _ => failFuel
  | _ + 1, [] => pure ()
  | f + 1, arg :: rest => do
    let _ ← lowerOptionalTerm env f arg.e
    let _ ← lowerOptionalTerm env f arg.guard
    fallbackArgsTerm env f rest

/-- The `unwrap_or_else` fallback of the term macro arm (lower.rs, lines
2061-2071). -/
def fallbackMacroTerm (env : Env) : Nat → Option (List AstMacroArg) → LowerM TermId
  | 0, _ => failFuel
  | f + 1, args => do
    fallbackArgsTerm env f (args.getD [])
    allocTerm .missing

end

-- Stack neutrality: every lowering computation that completes restores
-- the macro frame stack, the current-frame index, and the original file
-- id to their values at entry.  This is the balance invariant behind the
-- assertions of `Ctx::finish`.

/-- A lowering computation is stack neutral when any completed run leaves
the frame stack, the current frame index, and the original file id as it
found them. -/
def stackNeutral {α : Type} (m : LowerM α) : Prop :=
  ∀ (ctx : Ctx) (a : α) (ctx' : Ctx), m.run ctx = some (a, ctx') →
    ctx'.macroStack = ctx.macroStack ∧ ctx'.macroStackId = ctx.macroStackId ∧
    ctx'.originalFileId = ctx.originalFileId

theorem sn_failFuel {α : Type} : stackNeutral (failFuel : LowerM α) := by
  intro ctx a ctx' h
  exact absurd h (by simp [failFuel, StateT.run])

theorem sn_pure {α : Type} (a : α) : stackNeutral (pure a : LowerM α) := by
  intro ctx b ctx' h
  have : ctx' = ctx := by
    have := congrArg (fun o => Option.map Prod.snd o) h
    simpa [StateT.run, pure, StateT.pure] using this.symm
  rw [this]
  exact ⟨rfl, rfl, rfl⟩

theorem sn_getCtx : stackNeutral getCtx := by
  intro ctx a ctx' h
  have : ctx' = ctx := by
    have := congrArg (fun o => Option.map Prod.snd o) h
    simpa [StateT.run, getCtx] using this.symm
  rw [this]
  exact ⟨rfl, rfl, rfl⟩

theorem sn_allocExpr (e : Expr) : stackNeutral (allocExpr e) := by
  intro ctx a ctx' h
  simp only [StateT.run, allocExpr, Option.some.injEq, Prod.mk.injEq] at h
  rw [← h.2]
  exact ⟨rfl, rfl, rfl⟩

theorem sn_allocPat (p : Pat) : stackNeutral (allocPat p) := by
  intro ctx a ctx' h
  simp only [StateT.run, allocPat, Option.some.injEq, Prod.mk.injEq] at h
  rw [← h.2]
  exact ⟨rfl, rfl, rfl⟩

theorem sn_allocTerm (t : Term) : stackNeutral (allocTerm t) := by
  intro ctx a ctx' h
  simp only [StateT.run, allocTerm, Option.some.injEq, Prod.mk.injEq] at h
  rw [← h.2]
  exact ⟨rfl, rfl, rfl⟩

theorem sn_readExpr (i : ExprId) : stackNeutral (readExpr i) := by
  intro ctx a ctx' h
  simp only [StateT.run, readExpr, Option.some.injEq, Prod.mk.injEq] at h
  rw [← h.2]
  exact ⟨rfl, rfl, rfl⟩

theorem sn_readTerm (i : TermId) : stackNeutral (readTerm i) := by
  intro ctx a ctx' h
  simp only [StateT.run, readTerm, Option.some.injEq, Prod.mk.injEq] at h
  rw [← h.2]
  exact ⟨rfl, rfl, rfl⟩

theorem LowerM_run_bind_raw {α β : Type} (x : LowerM α) (g : α → LowerM β) (ctx : Ctx) :
    (x >>= g).run ctx = Option.bind (x.run ctx) (fun p => (g p.1).run p.2) := rfl

theorem LowerM_run_bind {α β : Type} (x : LowerM α) (g : α → LowerM β) (ctx : Ctx) :
    (x >>= g).run ctx =
      match x.run ctx with
      | none => none
      | some (a, s) => (g a).run s := by
  rw [LowerM_run_bind_raw]
  rcases h : x.run ctx with _ | ⟨a, s⟩ <;> simp

theorem sn_bind {α β : Type} {x : LowerM α} {g : α → LowerM β}
    (hx : stackNeutral x) (hg : ∀ a, stackNeutral (g a)) :
    stackNeutral (x >>= g) := by
  intro ctx b ctx' h
  rw [LowerM_run_bind] at h
  rcases hx1 : x.run ctx with _ | ⟨a, s⟩
  · rw [hx1] at h
    exact absurd h (by simp)
  · rw [hx1] at h
    obtain ⟨h1, h2, h3⟩ := hx _ _ _ hx1
    obtain ⟨g1, g2, g3⟩ := hg a s b ctx' h
    exact ⟨g1.trans h1, g2.trans h2, g3.trans h3⟩

theorem sn_withParentScope {α : Type} (parentId : Nat) (m : LowerM α)
    (hm : stackNeutral m) : stackNeutral (withParentScope parentId m) := by
  intro ctx a ctx' h
  simp only [StateT.run, withParentScope] at h
  rcases hm1 : m { ctx with macroStackId := parentId } with _ | ⟨b, c2⟩
  · rw [hm1] at h
    exact absurd h (by simp)
  · rw [hm1] at h
    simp only [Option.some.injEq, Prod.mk.injEq] at h
    obtain ⟨h1, h2, h3⟩ := hm _ _ _ hm1
    rw [← h.2]
    exact ⟨h1, rfl, h3⟩

theorem sn_withNewFrame {α : Type} (n : MacroName) (fid : FileId)
    (vm : List (String × AstMacroArg)) (m : LowerM α)
    (hm : stackNeutral m) : stackNeutral (withNewFrame n fid vm m) := by
  intro ctx a ctx' h
  simp only [StateT.run, withNewFrame] at h
  rcases hm1 : m (pushFrame ctx n fid vm) with _ | ⟨b, c2⟩
  · rw [hm1] at h
    exact absurd h (by simp)
  · rw [hm1] at h
    simp only [Option.some.injEq, Prod.mk.injEq] at h
    obtain ⟨h1, h2, h3⟩ := hm _ _ _ hm1
    rw [← h.2]
    have hstack : c2.macroStack =
        ctx.macroStack ++ [⟨n, fid, vm, ctx.macroStackId⟩] := h1
    constructor
    · show (popFrame c2).macroStack = ctx.macroStack
      unfold popFrame
      rw [hstack]
      simp
    constructor
    · show (popFrame c2).macroStackId = ctx.macroStackId
      unfold popFrame
      rw [hstack]
      simp
    · show (popFrame c2).originalFileId = ctx.originalFileId
      unfold popFrame
      rw [hstack]
      simpa using h3

/-- Every lowering function is stack neutral, at every fuel: each frame
pushed by the macro-entry bracket is popped again, and each parent-scope
rewind is restored, on every completed run. -/
theorem sn_lower_all (env : Env) : ∀ f : Nat,
    (∀ e, stackNeutral (lowerExpr env f e)) ∧
    (∀ oe, stackNeutral (lowerOptionalExpr env f oe)) ∧
    (∀ es, stackNeutral (lowerExprs env f es)) ∧
    (∀ t, stackNeutral (lowerCallTarget env f t)) ∧
    (∀ ar, stackNeutral (fallbackCallTarget env f ar)) ∧
    (∀ items ids tl, stackNeutral (lowerListItemsExpr env f items ids tl)) ∧
    (∀ fs acc, stackNeutral (lowerMapFieldsExpr env f fs acc)) ∧
    (∀ els acc, stackNeutral (lowerBinSegsExpr env f els acc)) ∧
    (∀ bts tys u, stackNeutral (lowerBitTypes env f bts tys u)) ∧
    (∀ n, stackNeutral (resolveName env f n)) ∧
    (∀ n, stackNeutral (resolveArity env f n)) ∧
    (∀ ar, stackNeutral (lowerMacroCallArgs env f ar)) ∧
    (∀ i ar, stackNeutral (wrapMacroExpansionExpr env f i ar)) ∧
    (∀ ar, stackNeutral (fallbackArgsExpr env f ar)) ∧
    (∀ ar, stackNeutral (fallbackMacroExpr env f ar)) ∧
    (∀ e, stackNeutral (lowerPat env f e)) ∧
    (∀ oe, stackNeutral (lowerOptionalPat env f oe)) ∧
    (∀ es, stackNeutral (lowerPats env f es)) ∧
    (∀ items ids tl, stackNeutral (lowerListItemsPat env f items ids tl)) ∧
    (∀ fs acc, stackNeutral (lowerMapFieldsPat env f fs acc)) ∧
    (∀ els acc, stackNeutral (lowerBinSegsPat env f els acc)) ∧
    (∀ i ar, stackNeutral (wrapMacroExpansionPat env f i ar)) ∧
    (∀ ar, stackNeutral (fallbackArgsPat env f ar)) ∧
    (∀ ar, stackNeutral (fallbackMacroPat env f ar)) ∧
    (∀ e, stackNeutral (lowerTerm env f e)) ∧
    (∀ oe, stackNeutral (lowerOptionalTerm env f oe)) ∧
    (∀ es, stackNeutral (lowerTerms env f es)) ∧
    (∀ items ids tl, stackNeutral (lowerListItemsTerm env f items ids tl)) ∧
    (∀ fs acc, stackNeutral (lowerMapFieldsTerm env f fs acc)) ∧
    (∀ els acc, stackNeutral (lowerBinFoldTerm env f els acc)) ∧
    (∀ i ar, stackNeutral (wrapMacroExpansionTerm env f i ar)) ∧
    (∀ ar, stackNeutral (fallbackArgsTerm env f ar)) ∧
    (∀ ar, stackNeutral (fallbackMacroTerm env f ar)) := by
  intro f
  induction f with
  | zero =>
    exact ⟨fun _ => sn_failFuel, fun _ => sn_failFuel, fun _ => sn_failFuel,
      fun _ => sn_failFuel, fun _ => sn_failFuel, fun _ _ _ => sn_failFuel,
      fun _ _ => sn_failFuel, fun _ _ => sn_failFuel, fun _ _ _ => sn_failFuel,
      fun _ => sn_failFuel, fun _ => sn_failFuel, fun _ => sn_failFuel,
      fun _ _ => sn_failFuel, fun _ => sn_failFuel, fun _ => sn_failFuel,
      fun _ => sn_failFuel, fun _ => sn_failFuel, fun _ => sn_failFuel,
      fun _ _ _ => sn_failFuel, fun _ _ => sn_failFuel, fun _ _ => sn_failFuel,
      fun _ _ => sn_failFuel, fun _ => sn_failFuel, fun _ => sn_failFuel,
      fun _ => sn_failFuel, fun _ => sn_failFuel, fun _ => sn_failFuel,
      fun _ _ _ => sn_failFuel, fun _ _ => sn_failFuel, fun _ _ => sn_failFuel,
      fun _ _ => sn_failFuel, fun _ => sn_failFuel, fun _ => sn_failFuel⟩
  | succ f ih =>
    obtain ⟨ihE, ihOE, ihEs, ihCT, ihFCT, ihLIE, ihMFE, ihBSE, ihBT, ihRN, ihRA,
      ihMCA, ihWE, ihFAE, ihFME, ihP, ihOP, ihPs, ihLIP, ihMFP, ihBSP, ihWP,
      ihFAP, ihFMP, ihT, ihOT, ihTs, ihLIT, ihMFT, ihBFT, ihWT, ihFAT, ihFMT⟩ := ih
    refine ⟨?_, ?_, ?_, ?_, ?_, ?_, ?_, ?_, ?_, ?_, ?_, ?_, ?_, ?_, ?_, ?_, ?_,
      ?_, ?_, ?_, ?_, ?_, ?_, ?_, ?_, ?_, ?_, ?_, ?_, ?_, ?_, ?_, ?_⟩
    · -- lowerExpr
      intro e
      cases e with
      | atom s => exact sn_allocExpr _
      | int n => exact sn_allocExpr _
      | char c => exact sn_allocExpr _
      | str s => exact sn_allocExpr _
      | var v =>
        refine sn_bind sn_getCtx (fun ctx => ?_)
        cases hv : varMapFind (currentEntry ctx).varMap v with
        | some arg => exact sn_withParentScope _ _ (ihOE _)
        | none => exact sn_allocExpr _
      | tuple es => exact sn_bind (ihEs es) (fun ids => sn_allocExpr _)
      | list es =>
        exact sn_bind (ihLIE es [] none) (fun p => by
          rcases p with ⟨ids, tl⟩
          exact sn_allocExpr _)
      | pipe lhs rhs =>
        exact sn_bind (ihOE lhs) (fun _ => sn_bind (ihOE rhs) (fun _ => sn_allocExpr _))
      | paren pe =>
        cases pe with
        | some inner => exact ihE inner
        | none => exact sn_allocExpr _
      | call tgt args =>
        exact sn_bind (ihCT tgt) (fun target =>
          sn_bind (ihEs _) (fun ids => sn_allocExpr _))
      | mapLit fields => exact sn_bind (ihMFE fields []) (fun fs => sn_allocExpr _)
      | binLit els => exact sn_bind (ihBSE els []) (fun segs => sn_allocExpr _)
      | macroCall name args =>
        refine sn_bind sn_getCtx (fun ctx => ?_)
        split
        · exact ihFME _
        · exact ihFME _
        · split
          · exact sn_bind (sn_allocExpr _) (fun eid => ihWE _ _)
          · exact ihFME _
        · split
          · exact ihFME _
          · exact sn_bind (sn_withNewFrame _ _ _ _ (ihE _)) (fun eid => ihWE _ _)
          · exact sn_bind (sn_withNewFrame _ _ _ _ (sn_pure _)) (fun _ => ihFME _)
        · split
          · exact sn_bind (sn_allocExpr _) (fun y => sn_bind (ihMCA _)
              (fun argIds => sn_bind (sn_allocExpr _) (fun cid => ihWE _ _)))
          · exact sn_bind (sn_allocExpr _) (fun y => sn_bind (ihMCA _)
              (fun argIds => sn_bind (sn_allocExpr _) (fun cid => ihWE _ _)))
        · split
          · exact ihFME _
          · rename_i repl heq
            refine sn_bind (sn_withNewFrame _ _ _ _ ?_) (fun cid? => ?_)
            · cases repl with
              | expr mexpr =>
                exact sn_bind (ihCT _) (fun target => sn_bind (ihMCA _)
                  (fun argIds => sn_bind (sn_allocExpr _) (fun cid => sn_pure _)))
              | other => exact sn_pure _
            · cases cid? with
              | some cid => exact ihWE _ _
              | none => exact ihFME _
    · -- lowerOptionalExpr
      intro oe
      cases oe with
      | some e => exact ihE e
      | none => exact sn_allocExpr _
    · -- lowerExprs
      intro es
      cases es with
      | nil => exact sn_pure _
      | cons e rest =>
        exact sn_bind (ihE e) (fun i => sn_bind (ihEs rest) (fun is => sn_pure _))
    · -- lowerCallTarget
      intro t
      cases t with
      | none => exact sn_bind (sn_allocExpr _) (fun i => sn_pure _)
      | some e =>
        cases e with
        | paren pe => exact ihCT pe
        | macroCall name args =>
          refine sn_bind sn_getCtx (fun ctx => ?_)
          split
          · exact ihFCT _
          · exact ihFCT _
          · split
            · exact sn_bind (sn_allocExpr _) (fun nid => sn_pure _)
            · exact ihFCT _
          · split
            · exact ihFCT _
            · exact sn_withNewFrame _ _ _ _ (ihCT _)
            · exact sn_bind (sn_withNewFrame _ _ _ _ (sn_pure _)) (fun _ => ihFCT _)
          · exact ihFCT _
          · split
            · exact ihFCT _
            · exact sn_bind (sn_withNewFrame _ _ _ _ (sn_pure _)) (fun _ => ihFCT _)
        | atom s => exact sn_bind (ihE _) (fun i => sn_pure _)
        | int n => exact sn_bind (ihE _) (fun i => sn_pure _)
        | char c => exact sn_bind (ihE _) (fun i => sn_pure _)
        | str s => exact sn_bind (ihE _) (fun i => sn_pure _)
        | var v => exact sn_bind (ihE _) (fun i => sn_pure _)
        | tuple es => exact sn_bind (ihE _) (fun i => sn_pure _)
        | list es => exact sn_bind (ihE _) (fun i => sn_pure _)
        | pipe lhs rhs => exact sn_bind (ihE _) (fun i => sn_pure _)
        | call tg ar => exact sn_bind (ihE _) (fun i => sn_pure _)
        | mapLit fields => exact sn_bind (ihE _) (fun i => sn_pure _)
        | binLit els => exact sn_bind (ihE _) (fun i => sn_pure _)
    · -- fallbackCallTarget
      intro ar
      exact sn_bind (ihFAE _) (fun _ => sn_bind (sn_allocExpr _) (fun i => sn_pure _))
    · -- lowerListItemsExpr
      intro items ids tl
      cases items with
      | nil => exact sn_pure _
      | cons item rest =>
        simp only [lowerListItemsExpr]
        cases item with
        | pipe lhs rhs =>
          cases lhs with
          | some l =>
            refine sn_bind (ihE l) (fun y => ?_)
            cases rhs with
            | some r =>
              exact sn_bind (ihE r) (fun t =>
                sn_bind (sn_pure _) (fun y1 => ihLIE rest _ _))
            | none => exact sn_bind (sn_pure _) (fun y1 => ihLIE rest _ _)
          | none =>
            refine sn_bind (sn_allocExpr _) (fun y => ?_)
            cases rhs with
            | some r =>
              exact sn_bind (ihE r) (fun t =>
                sn_bind (sn_pure _) (fun y1 => ihLIE rest _ _))
            | none => exact sn_bind (sn_pure _) (fun y1 => ihLIE rest _ _)
        | atom s => exact sn_bind (ihE _) (fun i => ihLIE rest _ _)
        | int n => exact sn_bind (ihE _) (fun i => ihLIE rest _ _)
        | char c => exact sn_bind (ihE _) (fun i => ihLIE rest _ _)
        | str s => exact sn_bind (ihE _) (fun i => ihLIE rest _ _)
        | var v => exact sn_bind (ihE _) (fun i => ihLIE rest _ _)
        | tuple es => exact sn_bind (ihE _) (fun i => ihLIE rest _ _)
        | list es => exact sn_bind (ihE _) (fun i => ihLIE rest _ _)
        | paren pe => exact sn_bind (ihE _) (fun i => ihLIE rest _ _)
        | call tg ar => exact sn_bind (ihE _) (fun i => ihLIE rest _ _)
        | mapLit fields => exact sn_bind (ihE _) (fun i => ihLIE rest _ _)
        | binLit els => exact sn_bind (ihE _) (fun i => ihLIE rest _ _)
        | macroCall n a => exact sn_bind (ihE _) (fun i => ihLIE rest _ _)
    · -- lowerMapFieldsExpr
      intro fs acc
      cases fs with
      | nil => exact sn_pure _
      | cons fld rest =>
        exact sn_bind (ihOE _) (fun k => sn_bind (ihOE _) (fun v => ihMFE rest _))
    · -- lowerBinSegsExpr
      intro els acc
      cases els with
      | nil => exact sn_pure _
      | cons el rest =>
        simp only [lowerBinSegsExpr]
        refine sn_bind (ihOE _) (fun elemId => ?_)
        cases el.size with
        | some se =>
          exact sn_bind (ihE se) (fun i => sn_bind (sn_pure _) (fun sizeId =>
            sn_bind (ihBT _ [] none) (fun p => by
              rcases p with ⟨tys, unit⟩
              exact ihBSE rest _)))
        | none =>
          exact sn_bind (sn_pure _) (fun sizeId =>
            sn_bind (ihBT _ [] none) (fun p => by
              rcases p with ⟨tys, unit⟩
              exact ihBSE rest _))
    · -- lowerBitTypes
      intro bts tys u
      cases bts with
      | nil => exact sn_pure _
      | cons bt rest =>
        simp only [lowerBitTypes]
        cases bt with
        | name n =>
          refine sn_bind (ihRN n) (fun a? => ?_)
          cases a? with
          | some a => exact ihBT rest _ _
          | none => exact ihBT rest _ _
        | unitSize sz =>
          cases sz with
          | some se => exact sn_bind (ihRA se) (fun u' => ihBT rest _ _)
          | none => exact sn_bind (sn_pure _) (fun u' => ihBT rest _ _)
    · -- resolveName
      intro n
      refine sn_bind (ihE n) (fun eid => sn_bind (sn_readExpr _) (fun e => ?_))
      cases e
      case literal l => cases l <;> exact sn_pure _
      all_goals exact sn_pure _
    · -- resolveArity
      intro n
      refine sn_bind (ihE n) (fun eid => sn_bind (sn_readExpr _) (fun e => ?_))
      cases e
      case literal l => cases l <;> exact sn_pure _
      all_goals exact sn_pure _
    · -- lowerMacroCallArgs
      intro ar
      cases ar with
      | nil => exact sn_pure _
      | cons a rest =>
        exact sn_bind (ihOE _) (fun i => sn_bind (ihMCA rest) (fun is => sn_pure _))
    · -- wrapMacroExpansionExpr
      intro i ar
      exact sn_bind (ihMCA _) (fun argIds => sn_allocExpr _)
    · -- fallbackArgsExpr
      intro ar
      cases ar with
      | nil => exact sn_pure _
      | cons a rest =>
        exact sn_bind (ihOE _) (fun _ => sn_bind (ihOE _) (fun _ => ihFAE rest))
    · -- fallbackMacroExpr
      intro ar
      exact sn_bind (ihFAE _) (fun _ => sn_allocExpr _)
    · -- lowerPat
      intro e
      cases e with
      | atom s => exact sn_allocPat _
      | int n => exact sn_allocPat _
      | char c => exact sn_allocPat _
      | str s => exact sn_allocPat _
      | var v =>
        refine sn_bind sn_getCtx (fun ctx => ?_)
        cases hv : varMapFind (currentEntry ctx).varMap v with
        | some arg => exact sn_withParentScope _ _ (ihOP _)
        | none => exact sn_allocPat _
      | tuple es => exact sn_bind (ihPs es) (fun ps => sn_allocPat _)
      | list es =>
        exact sn_bind (ihLIP es [] none) (fun p => by
          rcases p with ⟨ids, tl⟩
          exact sn_allocPat _)
      | pipe lhs rhs =>
        exact sn_bind (ihOP lhs) (fun _ => sn_bind (ihOP rhs) (fun _ => sn_allocPat _))
      | paren pe =>
        cases pe with
        | some inner => exact ihP inner
        | none => exact sn_allocPat _
      | call tgt args =>
        exact sn_bind (ihOP tgt) (fun _ => sn_bind (ihPs _) (fun _ => sn_allocPat _))
      | mapLit fields => exact sn_bind (ihMFP fields []) (fun fs => sn_allocPat _)
      | binLit els => exact sn_bind (ihBSP els []) (fun segs => sn_allocPat _)
      | macroCall name args =>
        refine sn_bind sn_getCtx (fun ctx => ?_)
        split
        · exact ihFMP _
        · exact ihFMP _
        · split
          · exact sn_bind (sn_allocPat _) (fun pid => ihWP _ _)
          · exact ihFMP _
        · split
          · exact ihFMP _
          · exact sn_bind (sn_withNewFrame _ _ _ _ (ihP _)) (fun pid => ihWP _ _)
          · exact sn_bind (sn_withNewFrame _ _ _ _ (sn_pure _)) (fun _ => ihFMP _)
        · exact ihFMP _
        · split
          · exact ihFMP _
          · exact sn_bind (sn_withNewFrame _ _ _ _ (sn_pure _)) (fun _ => ihFMP _)
    · -- lowerOptionalPat
      intro oe
      cases oe with
      | some e => exact ihP e
      | none => exact sn_allocPat _
    · -- lowerPats
      intro es
      cases es with
      | nil => exact sn_pure _
      | cons e rest =>
        exact sn_bind (ihP e) (fun i => sn_bind (ihPs rest) (fun is => sn_pure _))
    · -- lowerListItemsPat
      intro items ids tl
      cases items with
      | nil => exact sn_pure _
      | cons item rest =>
        simp only [lowerListItemsPat]
        cases item with
        | pipe lhs rhs =>
          cases lhs with
          | some l =>
            refine sn_bind (ihP l) (fun y => ?_)
            cases rhs with
            | some r =>
              exact sn_bind (ihP r) (fun t =>
                sn_bind (sn_pure _) (fun y1 => ihLIP rest _ _))
            | none => exact sn_bind (sn_pure _) (fun y1 => ihLIP rest _ _)
          | none =>
            refine sn_bind (sn_allocPat _) (fun y => ?_)
            cases rhs with
            | some r =>
              exact sn_bind (ihP r) (fun t =>
                sn_bind (sn_pure _) (fun y1 => ihLIP rest _ _))
            | none => exact sn_bind (sn_pure _) (fun y1 => ihLIP rest _ _)
        | atom s => exact sn_bind (ihP _) (fun i => ihLIP rest _ _)
        | int n => exact sn_bind (ihP _) (fun i => ihLIP rest _ _)
        | char c => exact sn_bind (ihP _) (fun i => ihLIP rest _ _)
        | str s => exact sn_bind (ihP _) (fun i => ihLIP rest _ _)
        | var v => exact sn_bind (ihP _) (fun i => ihLIP rest _ _)
        | tuple es => exact sn_bind (ihP _) (fun i => ihLIP rest _ _)
        | list es => exact sn_bind (ihP _) (fun i => ihLIP rest _ _)
        | paren pe => exact sn_bind (ihP _) (fun i => ihLIP rest _ _)
        | call tg ar => exact sn_bind (ihP _) (fun i => ihLIP rest _ _)
        | mapLit fields => exact sn_bind (ihP _) (fun i => ihLIP rest _ _)
        | binLit els => exact sn_bind (ihP _) (fun i => ihLIP rest _ _)
        | macroCall n a => exact sn_bind (ihP _) (fun i => ihLIP rest _ _)
    · -- lowerMapFieldsPat
      intro fs acc
      cases fs with
      | nil => exact sn_pure _
      | cons fld rest =>
        exact sn_bind (ihOE _) (fun k => sn_bind (ihOP _) (fun v => ihMFP rest _))
    · -- lowerBinSegsPat
      intro els acc
      cases els with
      | nil => exact sn_pure _
      | cons el rest =>
        simp only [lowerBinSegsPat]
        refine sn_bind (ihOP _) (fun elemId => ?_)
        cases el.size with
        | some se =>
          exact sn_bind (ihE se) (fun i => sn_bind (sn_pure _) (fun sizeId =>
            sn_bind (ihBT _ [] none) (fun p => by
              rcases p with ⟨tys, unit⟩
              exact ihBSP rest _)))
        | none =>
          exact sn_bind (sn_pure _) (fun sizeId =>
            sn_bind (ihBT _ [] none) (fun p => by
              rcases p with ⟨tys, unit⟩
              exact ihBSP rest _))
    · -- wrapMacroExpansionPat
      intro i ar
      exact sn_bind (ihMCA _) (fun argIds => sn_allocPat _)
    · -- fallbackArgsPat
      intro ar
      cases ar with
      | nil => exact sn_pure _
      | cons a rest =>
        exact sn_bind (ihOP _) (fun _ => sn_bind (ihOP _) (fun _ => ihFAP rest))
    · -- fallbackMacroPat
      intro ar
      exact sn_bind (ihFAP _) (fun _ => sn_allocPat _)
    · -- lowerTerm
      intro e
      cases e with
      | atom s => exact sn_allocTerm _
      | int n => exact sn_allocTerm _
      | char c => exact sn_allocTerm _
      | str s => exact sn_allocTerm _
      | var v =>
        refine sn_bind sn_getCtx (fun ctx => ?_)
        cases hv : varMapFind (currentEntry ctx).varMap v with
        | some arg => exact sn_withParentScope _ _ (ihOT _)
        | none => exact sn_allocTerm _
      | tuple es => exact sn_bind (ihTs es) (fun ids => sn_allocTerm _)
      | list es =>
        exact sn_bind (ihLIT es [] none) (fun p => by
          rcases p with ⟨ids, tl⟩
          exact sn_allocTerm _)
      | pipe lhs rhs =>
        exact sn_bind (ihOT lhs) (fun _ => sn_bind (ihOT rhs) (fun _ => sn_allocTerm _))
      | paren pe =>
        cases pe with
        | some inner => exact ihT inner
        | none => exact sn_allocTerm _
      | call tgt args =>
        exact sn_bind (ihOT tgt) (fun _ => sn_bind (ihTs _) (fun _ => sn_allocTerm _))
      | mapLit fields => exact sn_bind (ihMFT fields []) (fun fs => sn_allocTerm _)
      | binLit els =>
        exact sn_bind (ihBFT els (.binary [])) (fun value => sn_allocTerm _)
      | macroCall name args =>
        refine sn_bind sn_getCtx (fun ctx => ?_)
        split
        · exact ihFMT _
        · exact ihFMT _
        · split
          · exact sn_bind (sn_allocTerm _) (fun tid => ihWT _ _)
          · exact ihFMT _
        · split
          · exact ihFMT _
          · exact sn_bind (sn_withNewFrame _ _ _ _ (ihT _)) (fun tid => ihWT _ _)
          · exact sn_bind (sn_withNewFrame _ _ _ _ (sn_pure _)) (fun _ => ihFMT _)
        · exact ihFMT _
        · split
          · exact ihFMT _
          · exact sn_bind (sn_withNewFrame _ _ _ _ (sn_pure _)) (fun _ => ihFMT _)
    · -- lowerOptionalTerm
      intro oe
      cases oe with
      | some e => exact ihT e
      | none => exact sn_allocTerm _
    · -- lowerTerms
      intro es
      cases es with
      | nil => exact sn_pure _
      | cons e rest =>
        exact sn_bind (ihT e) (fun i => sn_bind (ihTs rest) (fun is => sn_pure _))
    · -- lowerListItemsTerm
      intro items ids tl
      cases items with
      | nil => exact sn_pure _
      | cons item rest =>
        simp only [lowerListItemsTerm]
        cases item with
        | pipe lhs rhs =>
          cases lhs with
          | some l =>
            refine sn_bind (ihT l) (fun y => ?_)
            cases rhs with
            | some r =>
              exact sn_bind (ihT r) (fun t =>
                sn_bind (sn_pure _) (fun y1 => ihLIT rest _ _))
            | none => exact sn_bind (sn_pure _) (fun y1 => ihLIT rest _ _)
          | none =>
            refine sn_bind (sn_allocTerm _) (fun y => ?_)
            cases rhs with
            | some r =>
              exact sn_bind (ihT r) (fun t =>
                sn_bind (sn_pure _) (fun y1 => ihLIT rest _ _))
            | none => exact sn_bind (sn_pure _) (fun y1 => ihLIT rest _ _)
        | atom s => exact sn_bind (ihT _) (fun i => ihLIT rest _ _)
        | int n => exact sn_bind (ihT _) (fun i => ihLIT rest _ _)
        | char c => exact sn_bind (ihT _) (fun i => ihLIT rest _ _)
        | str s => exact sn_bind (ihT _) (fun i => ihLIT rest _ _)
        | var v => exact sn_bind (ihT _) (fun i => ihLIT rest _ _)
        | tuple es => exact sn_bind (ihT _) (fun i => ihLIT rest _ _)
        | list es => exact sn_bind (ihT _) (fun i => ihLIT rest _ _)
        | paren pe => exact sn_bind (ihT _) (fun i => ihLIT rest _ _)
        | call tg ar => exact sn_bind (ihT _) (fun i => ihLIT rest _ _)
        | mapLit fields => exact sn_bind (ihT _) (fun i => ihLIT rest _ _)
        | binLit els => exact sn_bind (ihT _) (fun i => ihLIT rest _ _)
        | macroCall n a => exact sn_bind (ihT _) (fun i => ihLIT rest _ _)
    · -- lowerMapFieldsTerm
      intro fs acc
      cases fs with
      | nil => exact sn_pure _
      | cons fld rest =>
        exact sn_bind (ihOT _) (fun k => sn_bind (ihOT _) (fun v => ihMFT rest _))
    · -- lowerBinFoldTerm
      intro els acc
      cases els with
      | nil => exact sn_pure _
      | cons el rest =>
        simp only [lowerBinFoldTerm]
        refine sn_bind (ihOT _) (fun elemId => ?_)
        cases el.size with
        | some se =>
          exact sn_bind (ihE se) (fun i => sn_bind (sn_pure _) (fun sizeId =>
            sn_bind (ihBT _ [] none) (fun p => by
              rcases p with ⟨tys, unit⟩
              exact sn_bind (sn_readTerm _) (fun elemTerm => ihBFT rest _))))
        | none =>
          exact sn_bind (sn_pure _) (fun sizeId =>
            sn_bind (ihBT _ [] none) (fun p => by
              rcases p with ⟨tys, unit⟩
              exact sn_bind (sn_readTerm _) (fun elemTerm => ihBFT rest _)))
    · -- wrapMacroExpansionTerm
      intro i ar
      exact sn_bind (ihMCA _) (fun argIds => sn_allocTerm _)
    · -- fallbackArgsTerm
      intro ar
      cases ar with
      | nil => exact sn_pure _
      | cons a rest =>
        exact sn_bind (ihOT _) (fun _ => sn_bind (ihOT _) (fun _ => ihFAT rest))
    · -- fallbackMacroTerm
      intro ar
      exact sn_bind (ihFAT _) (fun _ => sn_allocTerm _)

/-- `Ctx::finish` (lower.rs, lines 121-131): pop the one remaining frame
and assert it is the sentinel (defining file, parent 0, empty caller-map)
and that nothing else is on the stack; `none` models an assertion
failure.  The shrink-to-fit is a no-op here; the returned value stands
for the `Body` arenas. -/
def Ctx.finish (ctx : Ctx) : Option (List Expr × List Pat × List Term) :=
  match ctx.macroStack with
  | [entry] =>
    if entry.fileId == ctx.originalFileId && entry.parentId == 0 &&
        entry.varMap.isEmpty then
      some (ctx.exprs, ctx.pats, ctx.terms)
    else none
  | _ => none

theorem finish_of_sentinel (ctx' : Ctx) (fid : FileId)
    (hs : ctx'.macroStack = [⟨missingName, fid, [], 0⟩])
    (ho : ctx'.originalFileId = fid) :
    Ctx.finish ctx' = some (ctx'.exprs, ctx'.pats, ctx'.terms) := by
  unfold Ctx.finish
  rw [hs, ho]
  simp

/-- C6: every lowering of one syntactic unit that runs to completion
leaves the macro frame stack containing exactly the initial sentinel
frame (whose caller-argument mapping is empty), with the sentinel
current; hence the assertions of `Ctx::finish` succeed on it, in each of
the three lowering modes, for every input syntax, fuel and environment. -/
theorem c6_finish_invariant_holds (env : Env) (fuel : Nat) (fid : FileId) :
    (∀ (e : AstExpr) (r : ExprId) (ctx' : Ctx),
      (lowerExpr env fuel e).run (Ctx.new fid) = some (r, ctx') →
      ctx'.macroStack = [⟨missingName, fid, [], 0⟩] ∧ ctx'.macroStackId = 0 ∧
      Ctx.finish ctx' = some (ctx'.exprs, ctx'.pats, ctx'.terms)) ∧
    (∀ (e : AstExpr) (r : PatId) (ctx' : Ctx),
      (lowerPat env fuel e).run (Ctx.new fid) = some (r, ctx') →
      ctx'.macroStack = [⟨missingName, fid, [], 0⟩] ∧ ctx'.macroStackId = 0 ∧
      Ctx.finish ctx' = some (ctx'.exprs, ctx'.pats, ctx'.terms)) ∧
    (∀ (e : AstExpr) (r : TermId) (ctx' : Ctx),
      (lowerTerm env fuel e).run (Ctx.new fid) = some (r, ctx') →
      ctx'.macroStack = [⟨missingName, fid, [], 0⟩] ∧ ctx'.macroStackId = 0 ∧
      Ctx.finish ctx' = some (ctx'.exprs, ctx'.pats, ctx'.terms)) := by
  obtain ⟨ihE, _, _, _, _, _, _, _, _, _, _, _, _, _, _, ihP, _, _, _, _, _, _,
    _, _, ihT, _, _, _, _, _, _, _, _⟩ := sn_lower_all env fuel
  refine ⟨?_, ?_, ?_⟩
  · intro e r ctx' h
    obtain ⟨h1, h2, h3⟩ := ihE e _ _ _ h
    refine ⟨h1, h2, finish_of_sentinel ctx' fid h1 h3⟩
  · intro e r ctx' h
    obtain ⟨h1, h2, h3⟩ := ihP e _ _ _ h
    refine ⟨h1, h2, finish_of_sentinel ctx' fid h1 h3⟩
  · intro e r ctx' h
    obtain ⟨h1, h2, h3⟩ := ihT e _ _ _ h
    refine ⟨h1, h2, finish_of_sentinel ctx' fid h1 h3⟩

/-- The environment of the spec's self-reference test: a file whose only
macro is the object-like, self-referential define `-define(A, ?A).`. -/
def selfRefEnv : Env :=
  { resolveMacroDb := fun _ n => if n == ⟨"A", none⟩ then some (.user 0) else none
    defines := fun _ => ⟨0, [], some (.expr (.macroCall "A" none))⟩
    moduleAttr := none }

/-- The completed context of lowering `?A` under `-define(A, ?A).`:
the inner `?A` is refused (missing node 0), the outer call wraps it. -/
def selfRefCtx : Ctx :=
  { originalFileId := 0
    macroStack := [⟨missingName, 0, [], 0⟩]
    macroStackId := 0
    functionInfo := none
    exprs := [Expr.missing, Expr.macroCall 0 []]
    pats := []
    terms := [] }

/-- C6, witness: lowering the self-referential `?A` runs to completion
(through one push/pop of A's frame) and the finish assertions succeed. -/
theorem c6_finish_invariant_holds_witness :
    (lowerExpr selfRefEnv 5 (.macroCall "A" none)).run (Ctx.new 0) =
      some (1, selfRefCtx) ∧
    (selfRefCtx.macroStack = [⟨missingName, 0, [], 0⟩] ∧
     selfRefCtx.macroStackId = 0 ∧
     Ctx.finish selfRefCtx = some (selfRefCtx.exprs, selfRefCtx.pats, selfRefCtx.terms)) :=
  ⟨rfl, (c6_finish_invariant_holds selfRefEnv 5 0).1 (.macroCall "A" none) 1 selfRefCtx rfl⟩

theorem run_getCtx_bind {α : Type} (k : Ctx → LowerM α) (ctx : Ctx) :
    ((getCtx >>= k).run ctx) = (k ctx).run ctx := rfl

theorem run_bind_eq_some {α β : Type} {x : LowerM α} {g : α → LowerM β}
    {ctx : Ctx} {b : β} {ctx' : Ctx}
    (h : (x >>= g).run ctx = some (b, ctx')) :
    ∃ a ctxm, x.run ctx = some (a, ctxm) ∧ (g a).run ctxm = some (b, ctx') := by
  rw [LowerM_run_bind] at h
  rcases hx : x.run ctx with _ | ⟨a, s⟩
  · rw [hx] at h
    exact absurd h (by simp)
  · rw [hx] at h
    exact ⟨a, s, rfl, h⟩

theorem fallbackMacroExpr_gives_missing (env : Env) (fuel : Nat)
    (args : Option (List AstMacroArg)) (ctx : Ctx) (r : ExprId) (ctx' : Ctx)
    (h : (fallbackMacroExpr env fuel args).run ctx = some (r, ctx')) :
    r < ctx'.exprs.length ∧ ctx'.exprs.getD r .missing = .missing := by
  cases fuel with
  | zero => exact absurd h (by simp [fallbackMacroExpr, failFuel, StateT.run])
  | succ f =>
    simp only [fallbackMacroExpr] at h
    obtain ⟨u, ctx1, h1, h2⟩ := run_bind_eq_some h
    simp only [StateT.run, allocExpr, Option.some.injEq, Prod.mk.injEq] at h2
    obtain ⟨hr, hc⟩ := h2
    subst hr
    subst hc
    constructor
    · simp
    · simp [List.getD, List.getElem?_concat_length]

theorem fallbackMacroPat_gives_missing (env : Env) (fuel : Nat)
    (args : Option (List AstMacroArg)) (ctx : Ctx) (r : PatId) (ctx' : Ctx)
    (h : (fallbackMacroPat env fuel args).run ctx = some (r, ctx')) :
    r < ctx'.pats.length ∧ ctx'.pats.getD r .missing = .missing := by
  cases fuel with
  | zero => exact absurd h (by simp [fallbackMacroPat, failFuel, StateT.run])
  | succ f =>
    simp only [fallbackMacroPat] at h
    obtain ⟨u, ctx1, h1, h2⟩ := run_bind_eq_some h
    simp only [StateT.run, allocPat, Option.some.injEq, Prod.mk.injEq] at h2
    obtain ⟨hr, hc⟩ := h2
    subst hr
    subst hc
    constructor
    · simp
    · simp [List.getD, List.getElem?_concat_length]

theorem fallbackMacroTerm_gives_missing (env : Env) (fuel : Nat)
    (args : Option (List AstMacroArg)) (ctx : Ctx) (r : TermId) (ctx' : Ctx)
    (h : (fallbackMacroTerm env fuel args).run ctx = some (r, ctx')) :
    r < ctx'.terms.length ∧ ctx'.terms.getD r .missing = .missing := by
  cases fuel with
  | zero => exact absurd h (by simp [fallbackMacroTerm, failFuel, StateT.run])
  | succ f =>
    simp only [fallbackMacroTerm] at h
    obtain ⟨u, ctx1, h1, h2⟩ := run_bind_eq_some h
    simp only [StateT.run, allocTerm, Option.some.injEq, Prod.mk.injEq] at h2
    obtain ⟨hr, hc⟩ := h2
    subst hr
    subst hc
    constructor
    · simp
    · simp [List.getD, List.getElem?_concat_length]

/-- C1: a macro call whose name (with its arity) matches an active frame
on the current expansion stack is refused by `resolve_macro`
(`Ctx::resolve_macro` returns `None`, here decision `refused`), so in
each lowering mode the call site falls back to the ordinary unresolved
handling: the raw arguments are lowered in place and the call itself
becomes the explicit missing node of the current mode.  This is what
makes the self-referential `-define(A, ?A).` and mutually recursive
pairs terminate instead of looping. -/
theorem c1_active_frame_refusal (env : Env) (ctx : Ctx) (name : String)
    (args : Option (List AstMacroArg)) (fuel : Nat)
    (hactive : (macroStackChain ctx).any (fun e => e.name == macroNameOf name args) = true) :
    resolveMacroDecision env ctx name args = .refused
    ∧ (lowerExpr env (fuel + 1) (.macroCall name args)).run ctx =
        (fallbackMacroExpr env fuel args).run ctx
    ∧ (lowerPat env (fuel + 1) (.macroCall name args)).run ctx =
        (fallbackMacroPat env fuel args).run ctx
    ∧ (lowerTerm env (fuel + 1) (.macroCall name args)).run ctx =
        (fallbackMacroTerm env fuel args).run ctx
    ∧ (∀ r ctx', (fallbackMacroExpr env fuel args).run ctx = some (r, ctx') →
        r < ctx'.exprs.length ∧ ctx'.exprs.getD r .missing = .missing)
    ∧ (∀ r ctx', (fallbackMacroPat env fuel args).run ctx = some (r, ctx') →
        r < ctx'.pats.length ∧ ctx'.pats.getD r .missing = .missing)
    ∧ (∀ r ctx', (fallbackMacroTerm env fuel args).run ctx = some (r, ctx') →
        r < ctx'.terms.length ∧ ctx'.terms.getD r .missing = .missing) := by
  have hdec : resolveMacroDecision env ctx name args = .refused := by
    simp [resolveMacroDecision, hactive]
  refine ⟨hdec, ?_, ?_, ?_, ?_, ?_, ?_⟩
  · simp only [lowerExpr, run_getCtx_bind]
    rw [hdec]
  · simp only [lowerPat, run_getCtx_bind]
    rw [hdec]
  · simp only [lowerTerm, run_getCtx_bind]
    rw [hdec]
  · intro r ctx' h
    exact fallbackMacroExpr_gives_missing env fuel args ctx r ctx' h
  · intro r ctx' h
    exact fallbackMacroPat_gives_missing env fuel args ctx r ctx' h
  · intro r ctx' h
    exact fallbackMacroTerm_gives_missing env fuel args ctx r ctx' h

/-- The context in the middle of expanding `A`: A's frame is active. -/
def insideACtx : Ctx := pushFrame (Ctx.new 0) ⟨"A", none⟩ 0 []

/-- C1, witness: with A's frame active, the inner `?A` is refused and
lowers to the fallback, whose node is the explicit missing expression. -/
theorem c1_active_frame_refusal_witness :
    ((macroStackChain insideACtx).any
      (fun e => e.name == macroNameOf "A" none) = true)
    ∧ resolveMacroDecision selfRefEnv insideACtx "A" none = .refused
    ∧ (lowerExpr selfRefEnv 3 (.macroCall "A" none)).run insideACtx =
        (fallbackMacroExpr selfRefEnv 2 none).run insideACtx
    ∧ (fallbackMacroExpr selfRefEnv 2 none).run insideACtx =
        some (0, { insideACtx with exprs := [Expr.missing] })
    ∧ (0 < 1 ∧ ([Expr.missing].getD 0 .missing = Expr.missing)) := by
  have h := c1_active_frame_refusal selfRefEnv insideACtx "A" none 2 (by decide)
  refine ⟨by decide, h.1, h.2.1, rfl, ?_⟩
  have h5 := h.2.2.2.2.1 0 { insideACtx with exprs := [Expr.missing] } rfl
  exact ⟨h5.1, h5.2⟩

/-- C2: when the variable under lowering is a formal parameter of the
macro being expanded (it is bound in the current frame's
caller-argument map), each lowering mode lowers the recorded caller
argument instead of the variable, inside `Ctx::resolve_var`'s scope
switch; and that switch runs its body with the current-frame index
temporarily rewound to the frame's parent (the macro's caller) and
restores the saved index afterwards, so nested expansions resolve
call-site variables in the caller's scope, not their own. -/
theorem c2_hygiene_parent_scope (env : Env) (ctx : Ctx) (v : String)
    (arg : AstMacroArg) (fuel : Nat)
    (hbound : varMapFind (currentEntry ctx).varMap v = some arg) :
    ((lowerExpr env (fuel + 1) (.var v)).run ctx =
      (withParentScope (currentEntry ctx).parentId
        (lowerOptionalExpr env fuel arg.e)).run ctx)
    ∧ ((lowerPat env (fuel + 1) (.var v)).run ctx =
      (withParentScope (currentEntry ctx).parentId
        (lowerOptionalPat env fuel arg.e)).run ctx)
    ∧ ((lowerTerm env (fuel + 1) (.var v)).run ctx =
      (withParentScope (currentEntry ctx).parentId
        (lowerOptionalTerm env fuel arg.e)).run ctx)
    ∧ (∀ (α : Type) (m : LowerM α) (r : α) (ctx' : Ctx),
        (withParentScope (currentEntry ctx).parentId m).run ctx = some (r, ctx') →
        ∃ ctxMid,
          m.run { ctx with macroStackId := (currentEntry ctx).parentId } =
            some (r, ctxMid) ∧
          ctx' = { ctxMid with macroStackId := ctx.macroStackId }) := by
  refine ⟨?_, ?_, ?_, ?_⟩
  · simp only [lowerExpr, run_getCtx_bind]
    rw [hbound]
  · simp only [lowerPat, run_getCtx_bind]
    rw [hbound]
  · simp only [lowerTerm, run_getCtx_bind]
    rw [hbound]
  · intro α m r ctx' h
    simp only [StateT.run, withParentScope] at h
    rcases hm : m { ctx with macroStackId := (currentEntry ctx).parentId } with
      _ | ⟨a, cm⟩
    · rw [hm] at h
      exact absurd h (by simp)
    · rw [hm] at h
      simp only [Option.some.injEq, Prod.mk.injEq] at h
      exact ⟨cm, by rw [StateT.run, hm, h.1], h.2.symm⟩

def fooCall : AstExpr := .call (some (.atom "foo")) (some [])

def barCall : AstExpr := .call (some (.atom "bar")) (some [])

def fooArg : AstMacroArg := ⟨some fooCall, none⟩

def barArg : AstMacroArg := ⟨some barCall, none⟩

/-- An environment holding `-define(SWAP(X, Y), {Y, X}).`. -/
def swapEnv : Env :=
  { resolveMacroDb := fun _ n => if n == ⟨"SWAP", some 2⟩ then some (.user 0) else none
    defines := fun _ => ⟨0, ["X", "Y"], some (.expr (.tuple [.var "Y", .var "X"]))⟩
    moduleAttr := none }

/-- The context in the middle of expanding `?SWAP(foo(), bar())`. -/
def swapCtx : Ctx :=
  pushFrame (Ctx.new 0) ⟨"SWAP", some 2⟩ 0 (mkVarMap ["X", "Y"] [fooArg, barArg])

/-- C2, witness: inside SWAP's frame the parameter `Y` is bound to the
caller argument `bar()`; it lowers to that argument's lowering under the
parent scope, producing the caller's `bar()` call nodes, with the
current-frame index (1, SWAP's frame) restored afterwards. -/
theorem c2_hygiene_parent_scope_witness :
    varMapFind (currentEntry swapCtx).varMap "Y" = some barArg
    ∧ (lowerExpr swapEnv 6 (.var "Y")).run swapCtx =
        (withParentScope (currentEntry swapCtx).parentId
          (lowerOptionalExpr swapEnv 5 barArg.e)).run swapCtx
    ∧ Option.map (fun p => (p.1, p.2.exprs, p.2.macroStackId))
        ((lowerExpr swapEnv 6 (.var "Y")).run swapCtx) =
      some (1, [Expr.literal (.atom "bar"), Expr.call (.Local 0) []], 1) := by
  have h := c2_hygiene_parent_scope swapEnv swapCtx "Y" barArg 5 rfl
  exact ⟨rfl, h.1, by decide⟩

/-- C8: when the arity-aware macro lookup fails, `resolve_macro` does not
give up if the call has an explicit argument list: it retries the lookup
with the arity erased (`MacroName::new(name, None)`), and a hit on that
second lookup is expanded (through the builtin-args or ast-args retry
path).  Without an argument list the failure is final, as it is when the
second lookup also misses; only then does the call site lower through
the fallback handling whose node is the explicit missing expression. -/
theorem c8_arity_agnostic_retry (env : Env) (ctx : Ctx) (name : String)
    (args : Option (List AstMacroArg)) (fuel : Nat)
    (hinactive : (macroStackChain ctx).any
      (fun e => e.name == macroNameOf name args) = false)
    (hfirst : env.resolveMacroDb ctx.originalFileId (macroNameOf name args) = none) :
    (args = none → resolveMacroDecision env ctx name args = .failed)
    ∧ (∀ argList, args = some argList →
        resolveMacroDecision env ctx name args =
          match env.resolveMacroDb ctx.originalFileId ⟨name, none⟩ with
          | none => .failed
          | some (.builtIn b) => .builtInRetry b argList
          | some (.user d) => .userRetry d argList)
    ∧ (resolveMacroDecision env ctx name args = .failed →
        (lowerExpr env (fuel + 1) (.macroCall name args)).run ctx =
          (fallbackMacroExpr env fuel args).run ctx) := by
  refine ⟨?_, ?_, ?_⟩
  · intro ha
    subst ha
    simp only [resolveMacroDecision, hinactive, Bool.false_eq_true, if_false, hfirst]
  · intro argList ha
    subst ha
    simp only [resolveMacroDecision, hinactive, Bool.false_eq_true, if_false, hfirst]
  · intro hfail
    simp only [lowerExpr, run_getCtx_bind]
    rw [hfail]

/-- A file defining the object-like `-define(M, ok).` only: a call
`?M(...)` misses the arity-aware lookup but hits the arity-erased one. -/
def retryEnv : Env :=
  { resolveMacroDb := fun _ n => if n == ⟨"M", none⟩ then some (.user 0) else none
    defines := fun _ => ⟨0, [], some (.expr (.atom "ok"))⟩
    moduleAttr := none }

/-- C8, witness: `?M(foo())` misses `M/1` but retries as `M` with the
arity erased and is expanded via the retry path, while the undefined
`?N` fails both ways and lowers through the fallback to the missing
expression node. -/
theorem c8_arity_agnostic_retry_witness :
    resolveMacroDecision retryEnv (Ctx.new 0) "M" (some [fooArg]) =
      .userRetry 0 [fooArg]
    ∧ resolveMacroDecision retryEnv (Ctx.new 0) "N" none = .failed
    ∧ (lowerExpr retryEnv 3 (.macroCall "N" none)).run (Ctx.new 0) =
        (fallbackMacroExpr retryEnv 2 none).run (Ctx.new 0)
    ∧ Option.map (fun p => (p.1, p.2.exprs))
        ((lowerExpr retryEnv 3 (.macroCall "N" none)).run (Ctx.new 0)) =
      some (0, [Expr.missing]) := by
  have hM := c8_arity_agnostic_retry retryEnv (Ctx.new 0) "M" (some [fooArg]) 2
    (by decide) (by decide)
  have hN := c8_arity_agnostic_retry retryEnv (Ctx.new 0) "N" none 2
    (by decide) (by decide)
  refine ⟨(hM.2.1 [fooArg] rfl).trans rfl, hN.1 rfl, hN.2.2 (hN.1 rfl), by decide⟩

theorem run_pure {α : Type} (a : α) (ctx : Ctx) :
    (pure a : LowerM α).run ctx = some (a, ctx) := rfl

theorem mapOp_cases (o : Option MapOp) :
    o = none ∨ o = some MapOp.assoc ∨ o = some MapOp.exact := by
  rcases o with _ | op
  · exact Or.inl rfl
  · cases op
    · exact Or.inr (Or.inl rfl)
    · exact Or.inr (Or.inr rfl)

theorem lowerMapFieldsExpr_keeps_assoc (env : Env) :
    ∀ (fields : List AstMapField) (fuel : Nat) (acc : List (ExprId × ExprId))
      (ctx : Ctx) (fs : List (ExprId × ExprId)) (ctx' : Ctx),
      (lowerMapFieldsExpr env fuel fields acc).run ctx = some (fs, ctx') →
      fs.length = acc.length +
        (fields.filter (fun fld => fld.op == some MapOp.assoc)).length := by
  intro fields
  induction fields with
  | nil =>
    intro fuel acc ctx fs ctx' h
    cases fuel with
    | zero => exact absurd h (by simp [lowerMapFieldsExpr, failFuel, StateT.run])
    | succ f =>
      rw [show lowerMapFieldsExpr env (f + 1) [] acc = pure acc from rfl,
        run_pure] at h
      simp only [Option.some.injEq, Prod.mk.injEq] at h
      rw [← h.1]
      simp
  | cons fld rest ih =>
    intro fuel acc ctx fs ctx' h
    cases fuel with
    | zero => exact absurd h (by simp [lowerMapFieldsExpr, failFuel, StateT.run])
    | succ f =>
      simp only [lowerMapFieldsExpr] at h
      obtain ⟨k, ctx1, hk, h1⟩ := run_bind_eq_some h
      obtain ⟨v, ctx2, hv, h2⟩ := run_bind_eq_some h1
      have hrec := ih f _ ctx2 fs ctx' h2
      rw [hrec]
      rcases mapOp_cases fld.op with hop | hop | hop <;>
        rw [hop] <;> simp [List.filter_cons, hop] <;> omega

theorem lowerMapFieldsPat_keeps_exact (env : Env) :
    ∀ (fields : List AstMapField) (fuel : Nat) (acc : List (ExprId × PatId))
      (ctx : Ctx) (fs : List (ExprId × PatId)) (ctx' : Ctx),
      (lowerMapFieldsPat env fuel fields acc).run ctx = some (fs, ctx') →
      fs.length = acc.length +
        (fields.filter (fun fld => fld.op == some MapOp.exact)).length := by
  intro fields
  induction fields with
  | nil =>
    intro fuel acc ctx fs ctx' h
    cases fuel with
    | zero => exact absurd h (by simp [lowerMapFieldsPat, failFuel, StateT.run])
    | succ f =>
      rw [show lowerMapFieldsPat env (f + 1) [] acc = pure acc from rfl,
        run_pure] at h
      simp only [Option.some.injEq, Prod.mk.injEq] at h
      rw [← h.1]
      simp
  | cons fld rest ih =>
    intro fuel acc ctx fs ctx' h
    cases fuel with
    | zero => exact absurd h (by simp [lowerMapFieldsPat, failFuel, StateT.run])
    | succ f =>
      simp only [lowerMapFieldsPat] at h
      obtain ⟨k, ctx1, hk, h1⟩ := run_bind_eq_some h
      obtain ⟨v, ctx2, hv, h2⟩ := run_bind_eq_some h1
      have hrec := ih f _ ctx2 fs ctx' h2
      rw [hrec]
      rcases mapOp_cases fld.op with hop | hop | hop <;>
        rw [hop] <;> simp [List.filter_cons, hop] <;> omega

/-- C3 (amended): map-literal operator filtering is mode-specific and
drops the non-matching pairs.  In Expression mode, only pairs whose
operator is `assoc` are kept in the resulting Map node (a pair with the
`exact` operator has its key and value lowered but is silently dropped
from the node); in Pattern mode, only pairs whose operator is `exact`
are kept. -/
theorem c3_map_literal_mode_operators (env : Env) (fuel : Nat)
    (fields : List AstMapField) (ctx : Ctx) :
    (∀ r ctx',
      (lowerExpr env (fuel + 1) (.mapLit fields)).run ctx = some (r, ctx') →
      ∃ fs, r < ctx'.exprs.length ∧ ctx'.exprs.getD r .missing = .map fs ∧
        fs.length =
          (fields.filter (fun fld => fld.op == some MapOp.assoc)).length)
    ∧ (∀ r ctx',
      (lowerPat env (fuel + 1) (.mapLit fields)).run ctx = some (r, ctx') →
      ∃ fs, r < ctx'.pats.length ∧ ctx'.pats.getD r .missing = .map fs ∧
        fs.length =
          (fields.filter (fun fld => fld.op == some MapOp.exact)).length) := by
  constructor
  · intro r ctx' h
    simp only [lowerExpr] at h
    obtain ⟨fs, ctxm, hfs, halloc⟩ := run_bind_eq_some h
    refine ⟨fs, ?_, ?_, ?_⟩
    · simp only [StateT.run, allocExpr, Option.some.injEq, Prod.mk.injEq] at halloc
      rw [← halloc.1, ← halloc.2]
      simp
    · simp only [StateT.run, allocExpr, Option.some.injEq, Prod.mk.injEq] at halloc
      rw [← halloc.1, ← halloc.2]
      simp [List.getD, List.getElem?_concat_length]
    · have := lowerMapFieldsExpr_keeps_assoc env fields fuel [] ctx fs ctxm hfs
      simpa using this
  · intro r ctx' h
    simp only [lowerPat] at h
    obtain ⟨fs, ctxm, hfs, halloc⟩ := run_bind_eq_some h
    refine ⟨fs, ?_, ?_, ?_⟩
    · simp only [StateT.run, allocPat, Option.some.injEq, Prod.mk.injEq] at halloc
      rw [← halloc.1, ← halloc.2]
      simp
    · simp only [StateT.run, allocPat, Option.some.injEq, Prod.mk.injEq] at halloc
      rw [← halloc.1, ← halloc.2]
      simp [List.getD, List.getElem?_concat_length]
    · have := lowerMapFieldsPat_keeps_exact env fields fuel [] ctx fs ctxm hfs
      simpa using this

/-- An environment with no macro definitions at all. -/
def plainEnv : Env := ⟨fun _ _ => none, fun _ => ⟨0, [], none⟩, none⟩

/-- C3, counterexample: in Expression mode the map literal `#{k := 1}`
(one pair, `exact` operator) lowers to the Map node `#{}`: the pair's
key and value are lowered (arena nodes 0 and 1) but the pair is dropped
from the node, where the claim promises every `exact` pair is kept in
Expression mode. -/
theorem c3_exact_pair_dropped_in_expr_mode :
    Option.map (fun p => (p.1, p.2.exprs))
      ((lowerExpr plainEnv 4
        (.mapLit [⟨some (.atom "k"), some (.int 1), some MapOp.exact⟩])).run
        (Ctx.new 0)) =
    some (2, [Expr.literal (.atom "k"), Expr.literal (.integer 1),
      Expr.map []]) := by decide

def c3Fields : List AstMapField :=
  [⟨some (.atom "a"), some (.int 1), some MapOp.assoc⟩,
   ⟨some (.atom "b"), some (.int 2), some MapOp.exact⟩]

/-- The completed context of lowering `#{a => 1, b := 2}` in Expression
mode: only the `assoc` pair survives in the Map node. -/
def c3ExprCtx : Ctx :=
  { originalFileId := 0
    macroStack := [⟨missingName, 0, [], 0⟩]
    macroStackId := 0
    functionInfo := none
    exprs := [.literal (.atom "a"), .literal (.integer 1),
      .literal (.atom "b"), .literal (.integer 2), .map [(0, 1)]]
    pats := []
    terms := [] }

/-- The completed context of lowering `#{a => 1, b := 2}` in Pattern
mode: keys go to the expression arena, values to the pattern arena, and
only the `exact` pair survives in the Map node. -/
def c3PatCtx : Ctx :=
  { originalFileId := 0
    macroStack := [⟨missingName, 0, [], 0⟩]
    macroStackId := 0
    functionInfo := none
    exprs := [.literal (.atom "a"), .literal (.atom "b")]
    pats := [.literal (.integer 1), .literal (.integer 2), .map [(1, 1)]]
    terms := [] }

/-- C3, witness: on `#{a => 1, b := 2}` the Expression-mode Map node
keeps exactly the one `assoc` pair and the Pattern-mode Map node keeps
exactly the one `exact` pair. -/
theorem c3_map_literal_mode_operators_witness :
    (∃ fs, 4 < c3ExprCtx.exprs.length ∧
      c3ExprCtx.exprs.getD 4 .missing = .map fs ∧
      fs.length =
        (c3Fields.filter (fun fld => fld.op == some MapOp.assoc)).length)
    ∧ (∃ fs, 2 < c3PatCtx.pats.length ∧
      c3PatCtx.pats.getD 2 .missing = .map fs ∧
      fs.length =
        (c3Fields.filter (fun fld => fld.op == some MapOp.exact)).length) := by
  have h := c3_map_literal_mode_operators plainEnv 4 c3Fields (Ctx.new 0)
  exact ⟨h.1 4 c3ExprCtx rfl, h.2 2 c3PatCtx rfl⟩

theorem run_bind_compose {α β : Type} (m : LowerM α) (ctx : Ctx)
    (k1 k2 : α → LowerM β) (cont : Option (β × Ctx) → Option (β × Ctx))
    (hnone : cont none = none)
    (hstep : ∀ a s, (k1 a).run s = cont ((k2 a).run s)) :
    (m >>= k1).run ctx = cont ((m >>= k2).run ctx) := by
  rw [LowerM_run_bind, LowerM_run_bind]
  rcases hm : m.run ctx with _ | ⟨a, s⟩
  · rw [hnone]
  · exact hstep a s

/-- Running the remaining items `ys` of a list literal from the state and
accumulator a completed prefix run left behind. -/
def contApp (env : Env) (fuel : Nat) (ys : List AstExpr) :
    Option ((List ExprId × Option ExprId) × Ctx) →
    Option ((List ExprId × Option ExprId) × Ctx)
  | none => none
  | some ((ids0, tl0), ctx0) => (lowerListItemsExpr env fuel ys ids0 tl0).run ctx0

/-- The item loop of `lower_list` processes an appended suffix from the
prefix's final accumulator and state (one fuel unit per item). -/
theorem lowerListItemsExpr_append (env : Env) (ys : List AstExpr) :
    ∀ (xs : List AstExpr) (f : Nat) (ids : List ExprId) (tl : Option ExprId)
      (ctx : Ctx),
      (lowerListItemsExpr env f (xs ++ ys) ids tl).run ctx =
        contApp env (f - xs.length) ys
          ((lowerListItemsExpr env f xs ids tl).run ctx) := by
  intro xs
  induction xs with
  | nil =>
    intro f ids tl ctx
    cases f <;> rfl
  | cons x xs' ih =>
    intro f ids tl ctx
    cases f with
    | zero => rfl
    | succ f' =>
      simp only [List.cons_append, List.length_cons, Nat.add_sub_add_right]
      cases x
      case pipe lhs rhs =>
        cases lhs with
        | some le =>
          cases rhs with
          | some re =>
            simp only [lowerListItemsExpr]
            refine run_bind_compose _ _ _ _ _ rfl ?_
            intro a s
            refine run_bind_compose _ _ _ _ _ rfl ?_
            intro b s2
            refine run_bind_compose _ _ _ _ _ rfl ?_
            intro nt s3
            exact ih f' _ nt s3
          | none =>
            simp only [lowerListItemsExpr]
            refine run_bind_compose _ _ _ _ _ rfl ?_
            intro a s
            refine run_bind_compose _ _ _ _ _ rfl ?_
            intro nt s2
            exact ih f' _ nt s2
        | none =>
          cases rhs with
          | some re =>
            simp only [lowerListItemsExpr]
            refine run_bind_compose _ _ _ _ _ rfl ?_
            intro a s
            refine run_bind_compose _ _ _ _ _ rfl ?_
            intro b s2
            refine run_bind_compose _ _ _ _ _ rfl ?_
            intro nt s3
            exact ih f' _ nt s3
          | none =>
            simp only [lowerListItemsExpr]
            refine run_bind_compose _ _ _ _ _ rfl ?_
            intro a s
            refine run_bind_compose _ _ _ _ _ rfl ?_
            intro nt s2
            exact ih f' _ nt s2
      all_goals
        simp only [lowerListItemsExpr]
      all_goals
        refine run_bind_compose _ _ _ _ _ rfl ?_
      all_goals
        intro a s
        exact ih f' (ids ++ [a]) tl s

/-- C4 (amended): when a list literal contains several spliced `|` tails,
the loop of `lower_list` keeps the LAST recorded tail as the list's tail
and demotes each earlier recorded tail to an ordinary sequence element
(inserted right after the superseding pipe item's own head).  Precisely:
if the items end in a pipe with a spliced tail `r`, the whole run's tail
is `r`'s lowering, and whatever tail the preceding items had recorded is
appended into the element sequence. -/
theorem c4_last_spliced_tail_kept (env : Env) (fuel : Nat)
    (pre : List AstExpr) (l : Option AstExpr) (r : AstExpr)
    (ids : List ExprId) (tl : Option ExprId) (ctx : Ctx)
    (ids' : List ExprId) (tl' : Option ExprId) (ctx' : Ctx)
    (h : (lowerListItemsExpr env fuel (pre ++ [.pipe l (some r)]) ids tl).run ctx =
      some ((ids', tl'), ctx')) :
    ∃ ids0 tl0 ctx0 i ctx1 tid ctx2,
      (lowerListItemsExpr env fuel pre ids tl).run ctx = some ((ids0, tl0), ctx0)
      ∧ ((match l with
          | some le => lowerExpr env (fuel - pre.length - 1) le
          | none => allocExpr .missing) : LowerM ExprId).run ctx0 = some (i, ctx1)
      ∧ (lowerExpr env (fuel - pre.length - 1) r).run ctx1 = some (tid, ctx2)
      ∧ tl' = some tid
      ∧ ids' = (ids0 ++ [i]) ++
          (match tl0 with | some t0 => [t0] | none => [])
      ∧ ctx' = ctx2 := by
  rw [lowerListItemsExpr_append] at h
  rcases hpre : (lowerListItemsExpr env fuel pre ids tl).run ctx with
    _ | ⟨⟨ids0, tl0⟩, ctx0⟩
  · rw [hpre] at h
    exact absurd h (by simp [contApp])
  · rw [hpre] at h
    simp only [contApp] at h
    rcases hg : fuel - pre.length with _ | g'
    · rw [hg] at h
      exact absurd h (by simp [lowerListItemsExpr, failFuel, StateT.run])
    · rw [hg] at h
      simp only [Nat.add_sub_cancel]
      cases l with
      | some le =>
        simp only [lowerListItemsExpr] at h
        obtain ⟨i, ctx1, hi, h2⟩ := run_bind_eq_some h
        obtain ⟨tid, ctx2, ht, h3⟩ := run_bind_eq_some h2
        obtain ⟨nt, ctx3, hnt, h4⟩ := run_bind_eq_some h3
        rw [run_pure] at hnt
        simp only [Option.some.injEq, Prod.mk.injEq] at hnt
        obtain ⟨hnt1, hnt2⟩ := hnt
        subst hnt1
        subst hnt2
        rcases g' with _ | g''
        · exact absurd h4 (by simp [lowerListItemsExpr, failFuel, StateT.run])
        · simp only [lowerListItemsExpr, run_pure, Option.some.injEq,
            Prod.mk.injEq] at h4
          obtain ⟨⟨hids, htl⟩, hctx⟩ := h4
          refine ⟨ids0, tl0, ctx0, i, ctx1, tid, ctx2, rfl, hi, ht, htl.symm,
            ?_, hctx.symm⟩
          rw [← hids]
          cases tl0 <;> simp
      | none =>
        simp only [lowerListItemsExpr] at h
        obtain ⟨i, ctx1, hi, h2⟩ := run_bind_eq_some h
        obtain ⟨tid, ctx2, ht, h3⟩ := run_bind_eq_some h2
        obtain ⟨nt, ctx3, hnt, h4⟩ := run_bind_eq_some h3
        rw [run_pure] at hnt
        simp only [Option.some.injEq, Prod.mk.injEq] at hnt
        obtain ⟨hnt1, hnt2⟩ := hnt
        subst hnt1
        subst hnt2
        rcases g' with _ | g''
        · exact absurd h4 (by simp [lowerListItemsExpr, failFuel, StateT.run])
        · simp only [lowerListItemsExpr, run_pure, Option.some.injEq,
            Prod.mk.injEq] at h4
          obtain ⟨⟨hids, htl⟩, hctx⟩ := h4
          refine ⟨ids0, tl0, ctx0, i, ctx1, tid, ctx2, rfl, hi, ht, htl.symm,
            ?_, hctx.symm⟩
          rw [← hids]
          cases tl0 <;> simp

/-- C4, counterexample: lowering the list `[a | b, c | d]` (two spliced
tails) makes node 3 — the literal `d` from the SECOND pipe — the list's
tail, and demotes the first recorded tail (node 1, the literal `b`) into
the element sequence `[0, 2, 1]`; the claim promises the first tail `b`
is kept as the tail and later tails are demoted. -/
theorem c4_first_tail_demoted_not_kept :
    Option.map (fun p => (p.2.exprs.getD p.1 Expr.missing, p.2.exprs))
      ((lowerExpr plainEnv 4
        (.list [.pipe (some (.atom "a")) (some (.atom "b")),
                .pipe (some (.atom "c")) (some (.atom "d"))])).run (Ctx.new 0)) =
    some (Expr.list [0, 2, 1] (some 3),
      [.literal (.atom "a"), .literal (.atom "b"), .literal (.atom "c"),
       .literal (.atom "d"), .list [0, 2, 1] (some 3)]) := by decide

/-- The state after running the item loop on `[a | b, c | d]`. -/
def c4Ctx : Ctx :=
  { originalFileId := 0
    macroStack := [⟨missingName, 0, [], 0⟩]
    macroStackId := 0
    functionInfo := none
    exprs := [.literal (.atom "a"), .literal (.atom "b"),
      .literal (.atom "c"), .literal (.atom "d")]
    pats := []
    terms := [] }

/-- C4, witness: on `[a | b, c | d]` the loop completes with element ids
`[0, 2, 1]` and tail node 3, and the theorem's decomposition holds: the
prefix `[a | b]` recorded tail `b` (node 1), the final pipe lowered its
head `c` and its spliced tail `d`, the run's tail is `d`'s node and the
prefix's recorded tail was demoted into the elements. -/
theorem c4_last_spliced_tail_kept_witness :
    (lowerListItemsExpr plainEnv 3
      [.pipe (some (.atom "a")) (some (.atom "b")),
       .pipe (some (.atom "c")) (some (.atom "d"))] [] none).run (Ctx.new 0) =
      some (([0, 2, 1], some 3), c4Ctx)
    ∧ (∃ ids0 tl0 ctx0 i ctx1 tid ctx2,
        (lowerListItemsExpr plainEnv 3
          [AstExpr.pipe (some (.atom "a")) (some (.atom "b"))] [] none).run
          (Ctx.new 0) = some ((ids0, tl0), ctx0)
        ∧ (lowerExpr plainEnv 1 (.atom "c")).run ctx0 = some (i, ctx1)
        ∧ (lowerExpr plainEnv 1 (.atom "d")).run ctx1 = some (tid, ctx2)
        ∧ (some 3 : Option ExprId) = some tid
        ∧ [0, 2, 1] = (ids0 ++ [i]) ++
            (match tl0 with | some t0 => [t0] | none => [])
        ∧ c4Ctx = ctx2) := by
  refine ⟨rfl, ?_⟩
  exact c4_last_spliced_tail_kept plainEnv 3
    [AstExpr.pipe (some (.atom "a")) (some (.atom "b"))]
    (some (.atom "c")) (.atom "d") [] none (Ctx.new 0) [0, 2, 1] (some 3)
    c4Ctx rfl

/-- A bare literal leaf (the only element class the binary fold keeps;
cf. the `Term::Literal` match of lower.rs, lines 1932-1949). -/
def litLeaf? : AstExpr → Option Literal
  | .atom s => some (.atom s)
  | .int n => some (.integer n)
  | .char c => some (.char c)
  | .str s => some (.string s)
  | _ => none

/-- The bytes one folded literal contributes (`as u8` truncation on
chars and integers, byte list of a string). -/
def litBytes? : Literal → Option (List Nat)
  | .char c => some [c.toNat % 256]
  | .integer n => some [(n % 256).toNat]
  | .string s => some (s.toList.map (fun ch => ch.toNat % 256))
  | .atom _ => none

/-- A trivially foldable segment: no size expression, no type-qualifier
list, and a char/integer/string literal leaf element; its folded bytes. -/
def segLitBytes? (seg : AstBinElement) : Option (List Nat) :=
  match seg.size, seg.types, seg.element with
  | none, [], some e => (litLeaf? e).bind litBytes?
  | _, _, _ => none

theorem lowerTerm_lit_leaf (env : Env) (e : AstExpr) (l : Literal) (f : Nat)
    (ctx : Ctx) (hl : litLeaf? e = some l) :
    (lowerTerm env (f + 1) e).run ctx =
      some (ctx.terms.length, { ctx with terms := ctx.terms ++ [.literal l] }) := by
  cases e
  case atom s =>
    simp only [litLeaf?, Option.some.injEq] at hl
    subst hl
    rfl
  case int n =>
    simp only [litLeaf?, Option.some.injEq] at hl
    subst hl
    rfl
  case char c =>
    simp only [litLeaf?, Option.some.injEq] at hl
    subst hl
    rfl
  case str s =>
    simp only [litLeaf?, Option.some.injEq] at hl
    subst hl
    rfl
  all_goals exact absurd hl (by simp [litLeaf?])

theorem lowerBinFoldTerm_folds (env : Env) :
    ∀ (segs : List AstBinElement) (fuel : Nat) (vec : List Nat) (ctx : Ctx)
      (res : Term) (ctx' : Ctx),
      (∀ seg ∈ segs, (segLitBytes? seg).isSome) →
      (lowerBinFoldTerm env fuel segs (.binary vec)).run ctx = some (res, ctx') →
      res = .binary
        (vec ++ (segs.map (fun seg => (segLitBytes? seg).getD [])).flatten) := by
  intro segs
  induction segs with
  | nil =>
    intro fuel vec ctx res ctx' hall h
    cases fuel with
    | zero => exact absurd h (by simp [lowerBinFoldTerm, failFuel, StateT.run])
    | succ f =>
      simp only [lowerBinFoldTerm, run_pure, Option.some.injEq, Prod.mk.injEq] at h
      rw [← h.1]
      simp
  | cons seg rest ih =>
    intro fuel vec ctx res ctx' hall h
    have hhead : (segLitBytes? seg).isSome := hall seg (by simp)
    have hrest : ∀ s ∈ rest, (segLitBytes? s).isSome := fun s hs =>
      hall s (by simp [hs])
    cases fuel with
    | zero => exact absurd h (by simp [lowerBinFoldTerm, failFuel, StateT.run])
    | succ f =>
      rcases seg with ⟨elOpt, szOpt, tys⟩
      cases szOpt with
      | some se =>
        exact absurd hhead (by simp [segLitBytes?, AstBinElement.size,
          AstBinElement.types, AstBinElement.element])
      | none =>
      cases tys with
      | cons bt bts =>
        exact absurd hhead (by simp [segLitBytes?, AstBinElement.size,
          AstBinElement.types, AstBinElement.element])
      | nil =>
      cases elOpt with
      | none =>
        exact absurd hhead (by simp [segLitBytes?, AstBinElement.size,
          AstBinElement.types, AstBinElement.element])
      | some e =>
      rcases hl : litLeaf? e with _ | l
      · exact absurd hhead (by simp [segLitBytes?, AstBinElement.size,
          AstBinElement.types, AstBinElement.element, hl])
      rcases hb : litBytes? l with _ | bytes
      · exact absurd hhead (by simp [segLitBytes?, AstBinElement.size,
          AstBinElement.types, AstBinElement.element, hl, hb])
      simp only [lowerBinFoldTerm, AstBinElement.element, AstBinElement.size,
        AstBinElement.types] at h
      obtain ⟨elemId, ctx1, hel, h2⟩ := run_bind_eq_some h
      obtain ⟨sizeId, ctx2, hsz, h3⟩ := run_bind_eq_some h2
      obtain ⟨tu, ctx3, hbt, h4⟩ := run_bind_eq_some h3
      obtain ⟨elemTerm, ctx4, hrd, h5⟩ := run_bind_eq_some h4
      cases f with
      | zero => exact absurd hel (by simp [lowerOptionalTerm, failFuel, StateT.run])
      | succ f2 =>
      simp only [lowerOptionalTerm] at hel
      cases f2 with
      | zero => exact absurd hel (by simp [lowerTerm, failFuel, StateT.run])
      | succ f3 =>
      rw [lowerTerm_lit_leaf env e l f3 ctx hl] at hel
      simp only [Option.some.injEq, Prod.mk.injEq] at hel
      obtain ⟨he1, he2⟩ := hel
      subst he1
      subst he2
      rw [run_pure] at hsz
      simp only [Option.some.injEq, Prod.mk.injEq] at hsz
      obtain ⟨hs1, hs2⟩ := hsz
      subst hs1
      subst hs2
      simp only [lowerBitTypes, run_pure, Option.some.injEq, Prod.mk.injEq] at hbt
      obtain ⟨hb1, hb2⟩ := hbt
      subst hb1
      subst hb2
      simp only [readTerm, StateT.run, Option.some.injEq, Prod.mk.injEq] at hrd
      obtain ⟨hr1, hr2⟩ := hrd
      subst hr1
      subst hr2
      rw [show ({ ctx with terms := ctx.terms ++ [Term.literal l] } : Ctx).terms.getD
          ctx.terms.length Term.missing = Term.literal l from by
        simp [List.getD, List.getElem?_concat_length]] at h5
      cases l with
      | atom a => exact absurd hb (by simp [litBytes?])
      | char c =>
        simp only [litBytes?, Option.some.injEq] at hb
        subst hb
        have h5' : (lowerBinFoldTerm env (f3 + 1 + 1) rest
            (.binary (vec ++ [c.toNat % 256]))).run
            { ctx with terms := ctx.terms ++ [Term.literal (.char c)] } =
            some (res, ctx') := h5
        rw [ih (f3 + 1 + 1) (vec ++ [c.toNat % 256]) _ res ctx' hrest h5']
        simp [segLitBytes?, AstBinElement.size, AstBinElement.types,
          AstBinElement.element, hl, litBytes?]
      | integer n =>
        simp only [litBytes?, Option.some.injEq] at hb
        subst hb
        have h5' : (lowerBinFoldTerm env (f3 + 1 + 1) rest
            (.binary (vec ++ [(n % 256).toNat]))).run
            { ctx with terms := ctx.terms ++ [Term.literal (.integer n)] } =
            some (res, ctx') := h5
        rw [ih (f3 + 1 + 1) (vec ++ [(n % 256).toNat]) _ res ctx' hrest h5']
        simp [segLitBytes?, AstBinElement.size, AstBinElement.types,
          AstBinElement.element, hl, litBytes?]
      | string s =>
        simp only [litBytes?, Option.some.injEq] at hb
        subst hb
        have h5' : (lowerBinFoldTerm env (f3 + 1 + 1) rest
            (.binary (vec ++ s.toList.map (fun ch => ch.toNat % 256)))).run
            { ctx with terms := ctx.terms ++ [Term.literal (.string s)] } =
            some (res, ctx') := h5
        rw [ih (f3 + 1 + 1) (vec ++ s.toList.map (fun ch => ch.toNat % 256)) _
          res ctx' hrest h5']
        simp [segLitBytes?, AstBinElement.size, AstBinElement.types,
          AstBinElement.element, hl, litBytes?]

theorem resolveName_atom (env : Env) (a : String) (fuel : Nat) (ctx : Ctx)
    (res : Option String) (ctx' : Ctx)
    (h : (resolveName env fuel (.atom a)).run ctx = some (res, ctx')) :
    res = some a := by
  cases fuel with
  | zero => exact absurd h (by simp [resolveName, failFuel, StateT.run])
  | succ f =>
  simp only [resolveName] at h
  obtain ⟨eid, ctx1, he, h2⟩ := run_bind_eq_some h
  cases f with
  | zero => exact absurd he (by simp [lowerExpr, failFuel, StateT.run])
  | succ f2 =>
  simp only [lowerExpr, StateT.run, allocExpr, Option.some.injEq,
    Prod.mk.injEq] at he
  obtain ⟨he1, he2⟩ := he
  subst he1
  subst he2
  obtain ⟨ev, ctx2, hrd, h3⟩ := run_bind_eq_some h2
  simp only [readExpr, StateT.run, Option.some.injEq, Prod.mk.injEq] at hrd
  obtain ⟨hr1, hr2⟩ := hrd
  rw [show ({ ctx with exprs := ctx.exprs ++ [Expr.literal (.atom a)] } :
      Ctx).exprs.getD ctx.exprs.length Expr.missing = Expr.literal (.atom a) from by
    simp [List.getD, List.getElem?_concat_length]] at hr1
  subst hr1
  subst hr2
  rw [run_pure] at h3
  simp only [Option.some.injEq, Prod.mk.injEq] at h3
  exact h3.1.symm

theorem lowerBitTypes_prefix (env : Env) :
    ∀ (types : List AstBitType) (fuel : Nat) (tys : List String)
      (unit : Option Int) (ctx : Ctx) (res : List String × Option Int)
      (ctx' : Ctx),
      (lowerBitTypes env fuel types tys unit).run ctx = some (res, ctx') →
      ∃ suffix, res.1 = tys ++ suffix := by
  intro types
  induction types with
  | nil =>
    intro fuel tys unit ctx res ctx' h
    cases fuel with
    | zero => exact absurd h (by simp [lowerBitTypes, failFuel, StateT.run])
    | succ f =>
      simp only [lowerBitTypes, run_pure, Option.some.injEq, Prod.mk.injEq] at h
      exact ⟨[], by rw [← h.1]; simp⟩
  | cons bt bts ih =>
    intro fuel tys unit ctx res ctx' h
    cases fuel with
    | zero => exact absurd h (by simp [lowerBitTypes, failFuel, StateT.run])
    | succ f =>
    cases bt with
    | name n =>
      simp only [lowerBitTypes] at h
      obtain ⟨ra, ctx1, ha, h2⟩ := run_bind_eq_some h
      cases ra with
      | some a2 =>
        obtain ⟨sfx, hs⟩ := ih f (tys ++ [a2]) unit ctx1 res ctx' h2
        exact ⟨[a2] ++ sfx, by rw [hs]; simp⟩
      | none => exact ih f tys unit ctx1 res ctx' h2
    | unitSize sz =>
      cases sz with
      | some se =>
        simp only [lowerBitTypes] at h
        obtain ⟨u, ctx1, hu, h2⟩ := run_bind_eq_some h
        exact ih f tys u ctx1 res ctx' h2
      | none =>
        simp only [lowerBitTypes] at h
        obtain ⟨u, ctx1, hu, h2⟩ := run_bind_eq_some h
        exact ih f tys u ctx1 res ctx' h2

theorem lowerBitTypes_atom_nonempty (env : Env) (a : String) :
    ∀ (types : List AstBitType) (fuel : Nat) (tys : List String)
      (unit : Option Int) (ctx : Ctx) (res : List String × Option Int)
      (ctx' : Ctx),
      AstBitType.name (.atom a) ∈ types →
      (lowerBitTypes env fuel types tys unit).run ctx = some (res, ctx') →
      res.1 ≠ [] := by
  intro types
  induction types with
  | nil =>
    intro fuel tys unit ctx res ctx' hmem _
    simp at hmem
  | cons bt bts ih =>
    intro fuel tys unit ctx res ctx' hmem h
    cases fuel with
    | zero => exact absurd h (by simp [lowerBitTypes, failFuel, StateT.run])
    | succ f =>
    rcases List.mem_cons.mp hmem with heq | hmem'
    · subst heq
      simp only [lowerBitTypes] at h
      obtain ⟨ra, ctx1, ha, h2⟩ := run_bind_eq_some h
      have haa : ra = some a := resolveName_atom env a f ctx ra ctx1 ha
      subst haa
      obtain ⟨sfx, hs⟩ := lowerBitTypes_prefix env bts f (tys ++ [a]) unit ctx1
        res ctx' h2
      rw [hs]
      simp
    · cases bt with
      | name n =>
        simp only [lowerBitTypes] at h
        obtain ⟨ra, ctx1, ha, h2⟩ := run_bind_eq_some h
        cases ra with
        | some a2 => exact ih f (tys ++ [a2]) unit ctx1 res ctx' hmem' h2
        | none => exact ih f tys unit ctx1 res ctx' hmem' h2
      | unitSize sz =>
        cases sz with
        | some se =>
          simp only [lowerBitTypes] at h
          obtain ⟨u, ctx1, hu, h2⟩ := run_bind_eq_some h
          exact ih f tys u ctx1 res ctx' hmem' h2
        | none =>
          simp only [lowerBitTypes] at h
          obtain ⟨u, ctx1, hu, h2⟩ := run_bind_eq_some h
          exact ih f tys u ctx1 res ctx' hmem' h2

theorem lowerBinFoldTerm_missing_absorbs (env : Env) :
    ∀ (segs : List AstBinElement) (fuel : Nat) (ctx : Ctx) (res : Term)
      (ctx' : Ctx),
      (lowerBinFoldTerm env fuel segs .missing).run ctx = some (res, ctx') →
      res = .missing := by
  intro segs
  induction segs with
  | nil =>
    intro fuel ctx res ctx' h
    cases fuel with
    | zero => exact absurd h (by simp [lowerBinFoldTerm, failFuel, StateT.run])
    | succ f =>
      simp only [lowerBinFoldTerm, run_pure, Option.some.injEq, Prod.mk.injEq] at h
      exact h.1.symm
  | cons seg rest ih =>
    intro fuel ctx res ctx' h
    cases fuel with
    | zero => exact absurd h (by simp [lowerBinFoldTerm, failFuel, StateT.run])
    | succ f =>
    rcases seg with ⟨elOpt, szOpt, tys⟩
    cases szOpt with
    | some se =>
      simp only [lowerBinFoldTerm, AstBinElement.element, AstBinElement.size,
        AstBinElement.types] at h
      obtain ⟨elemId, ctx1, hel, h2⟩ := run_bind_eq_some h
      obtain ⟨i, ctx2, hi, h3⟩ := run_bind_eq_some h2
      obtain ⟨sizeId, ctx3, hs, h4⟩ := run_bind_eq_some h3
      obtain ⟨tu, ctx4, hbt, h5⟩ := run_bind_eq_some h4
      obtain ⟨elemTerm, ctx5, hrd, h6⟩ := run_bind_eq_some h5
      exact ih f ctx5 res ctx' h6
    | none =>
      simp only [lowerBinFoldTerm, AstBinElement.element, AstBinElement.size,
        AstBinElement.types] at h
      obtain ⟨elemId, ctx1, hel, h2⟩ := run_bind_eq_some h
      obtain ⟨sizeId, ctx2, hs, h3⟩ := run_bind_eq_some h2
      obtain ⟨tu, ctx3, hbt, h4⟩ := run_bind_eq_some h3
      obtain ⟨elemTerm, ctx4, hrd, h5⟩ := run_bind_eq_some h4
      exact ih f ctx4 res ctx' h5

theorem lowerBinFoldTerm_bad_missing (env : Env) :
    ∀ (segs : List AstBinElement) (fuel : Nat) (acc : Term) (ctx : Ctx)
      (res : Term) (ctx' : Ctx),
      (∃ seg ∈ segs, seg.size.isSome = true
        ∨ (∃ a, AstBitType.name (.atom a) ∈ seg.types)
        ∨ (seg.element = none ∧ seg.size = none ∧ seg.types = [])) →
      (lowerBinFoldTerm env fuel segs acc).run ctx = some (res, ctx') →
      res = .missing := by
  intro segs
  induction segs with
  | nil =>
    intro fuel acc ctx res ctx' hbad _
    obtain ⟨bseg, hmem, _⟩ := hbad
    simp at hmem
  | cons seg rest ih =>
    intro fuel acc ctx res ctx' hbad h
    cases fuel with
    | zero => exact absurd h (by simp [lowerBinFoldTerm, failFuel, StateT.run])
    | succ f =>
    obtain ⟨bseg, hmem, hkind⟩ := hbad
    rcases List.mem_cons.mp hmem with heq | hmem'
    · subst heq
      rcases bseg with ⟨elOpt, szOpt, tys⟩
      rcases hkind with hsz | ⟨a, hty⟩ | ⟨heln, hsz0, hty0⟩
      · -- an explicit size expression
        cases szOpt with
        | none => simp [AstBinElement.size] at hsz
        | some se =>
          simp only [lowerBinFoldTerm, AstBinElement.element, AstBinElement.size,
            AstBinElement.types] at h
          obtain ⟨elemId, ctx1, hel, h2⟩ := run_bind_eq_some h
          obtain ⟨i, ctx2, hi, h3⟩ := run_bind_eq_some h2
          obtain ⟨sizeId, ctx3, hs, h4⟩ := run_bind_eq_some h3
          obtain ⟨tu, ctx4, hbt, h5⟩ := run_bind_eq_some h4
          obtain ⟨elemTerm, ctx5, hrd, h6⟩ := run_bind_eq_some h5
          rw [run_pure] at hs
          simp only [Option.some.injEq, Prod.mk.injEq] at hs
          obtain ⟨hs1, hs2⟩ := hs
          subst hs1
          subst hs2
          obtain ⟨tys2, unit2⟩ := tu
          cases acc <;>
            exact lowerBinFoldTerm_missing_absorbs env rest f ctx5 res ctx' h6
      · -- an atom type qualifier
        simp only [AstBinElement.types] at hty
        cases szOpt with
        | some se =>
          simp only [lowerBinFoldTerm, AstBinElement.element, AstBinElement.size,
            AstBinElement.types] at h
          obtain ⟨elemId, ctx1, hel, h2⟩ := run_bind_eq_some h
          obtain ⟨i, ctx2, hi, h3⟩ := run_bind_eq_some h2
          obtain ⟨sizeId, ctx3, hs, h4⟩ := run_bind_eq_some h3
          obtain ⟨tu, ctx4, hbt, h5⟩ := run_bind_eq_some h4
          obtain ⟨elemTerm, ctx5, hrd, h6⟩ := run_bind_eq_some h5
          have hne : tu.1 ≠ [] :=
            lowerBitTypes_atom_nonempty env a tys f [] none ctx3 tu ctx4 hty hbt
          obtain ⟨tys2, unit2⟩ := tu
          have hempty : (tys2, unit2).1.isEmpty = false := by
            cases tys2
            · exact absurd rfl hne
            · rfl
          have hcond : (sizeId.isNone && (tys2, unit2).2.isNone &&
              (tys2, unit2).1.isEmpty) = false := by
            rw [hempty, Bool.and_false]
          cases acc <;>
            first
            | exact lowerBinFoldTerm_missing_absorbs env rest f ctx5 res ctx' h6
            | (rw [hcond] at h6
               exact lowerBinFoldTerm_missing_absorbs env rest f ctx5 res ctx' h6)
        | none =>
          simp only [lowerBinFoldTerm, AstBinElement.element, AstBinElement.size,
            AstBinElement.types] at h
          obtain ⟨elemId, ctx1, hel, h2⟩ := run_bind_eq_some h
          obtain ⟨sizeId, ctx2, hs, h3⟩ := run_bind_eq_some h2
          obtain ⟨tu, ctx3, hbt, h4⟩ := run_bind_eq_some h3
          obtain ⟨elemTerm, ctx4, hrd, h5⟩ := run_bind_eq_some h4
          have hne : tu.1 ≠ [] :=
            lowerBitTypes_atom_nonempty env a tys f [] none ctx2 tu ctx3 hty hbt
          obtain ⟨tys2, unit2⟩ := tu
          have hempty : (tys2, unit2).1.isEmpty = false := by
            cases tys2
            · exact absurd rfl hne
            · rfl
          have hcond : (sizeId.isNone && (tys2, unit2).2.isNone &&
              (tys2, unit2).1.isEmpty) = false := by
            rw [hempty, Bool.and_false]
          cases acc <;>
            first
            | exact lowerBinFoldTerm_missing_absorbs env rest f ctx4 res ctx' h5
            | (rw [hcond] at h5
               exact lowerBinFoldTerm_missing_absorbs env rest f ctx4 res ctx' h5)
      · -- an absent element with no qualifiers
        subst heln
        subst hsz0
        subst hty0
        simp only [lowerBinFoldTerm, AstBinElement.element, AstBinElement.size,
          AstBinElement.types] at h
        obtain ⟨elemId, ctx1, hel, h2⟩ := run_bind_eq_some h
        obtain ⟨sizeId, ctx2, hs, h3⟩ := run_bind_eq_some h2
        obtain ⟨tu, ctx3, hbt, h4⟩ := run_bind_eq_some h3
        obtain ⟨elemTerm, ctx4, hrd, h5⟩ := run_bind_eq_some h4
        cases f with
        | zero =>
          exact absurd hel (by simp [lowerOptionalTerm, failFuel, StateT.run])
        | succ f2 =>
        simp only [lowerOptionalTerm, StateT.run, allocTerm, Option.some.injEq,
          Prod.mk.injEq] at hel
        obtain ⟨he1, he2⟩ := hel
        subst he1
        subst he2
        rw [run_pure] at hs
        simp only [Option.some.injEq, Prod.mk.injEq] at hs
        obtain ⟨hs1, hs2⟩ := hs
        subst hs1
        subst hs2
        simp only [lowerBitTypes, run_pure, Option.some.injEq, Prod.mk.injEq] at hbt
        obtain ⟨hb1, hb2⟩ := hbt
        subst hb1
        subst hb2
        simp only [readTerm, StateT.run, Option.some.injEq, Prod.mk.injEq] at hrd
        obtain ⟨hr1, hr2⟩ := hrd
        rw [show ({ ctx with terms := ctx.terms ++ [Term.missing] } :
            Ctx).terms.getD ctx.terms.length Term.missing = Term.missing from by
          simp [List.getD, List.getElem?_concat_length]] at hr1
        subst hr1
        subst hr2
        cases acc <;>
          exact lowerBinFoldTerm_missing_absorbs env rest (f2 + 1) _ res ctx' h5
    · rcases seg with ⟨elOpt, szOpt, tys⟩
      cases szOpt with
      | some se =>
        simp only [lowerBinFoldTerm, AstBinElement.element, AstBinElement.size,
          AstBinElement.types] at h
        obtain ⟨elemId, ctx1, hel, h2⟩ := run_bind_eq_some h
        obtain ⟨i, ctx2, hi, h3⟩ := run_bind_eq_some h2
        obtain ⟨sizeId, ctx3, hs, h4⟩ := run_bind_eq_some h3
        obtain ⟨tu, ctx4, hbt, h5⟩ := run_bind_eq_some h4
        obtain ⟨elemTerm, ctx5, hrd, h6⟩ := run_bind_eq_some h5
        exact ih f _ ctx5 res ctx' ⟨bseg, hmem', hkind⟩ h6
      | none =>
        simp only [lowerBinFoldTerm, AstBinElement.element, AstBinElement.size,
          AstBinElement.types] at h
        obtain ⟨elemId, ctx1, hel, h2⟩ := run_bind_eq_some h
        obtain ⟨sizeId, ctx2, hs, h3⟩ := run_bind_eq_some h2
        obtain ⟨tu, ctx3, hbt, h4⟩ := run_bind_eq_some h3
        obtain ⟨elemTerm, ctx4, hrd, h5⟩ := run_bind_eq_some h4
        exact ih f _ ctx4 res ctx' ⟨bseg, hmem', hkind⟩ h5

/-- C7 (amended): lowering an attribute value's binary literal to a Term
folds at lowering time exactly when every constraint it actually
resolves is trivial.  A binary all of whose segments are bare
char/integer/string literal leaves with no size expression and an empty
type-qualifier list folds into one constant binary Term, concatenating
byte values truncated `as u8`.  A segment with an explicit size
expression, or with a type qualifier written as a plain atom (which
resolves and lands in the segment's type list), or with an absent
element (and no qualifiers), makes the whole binary lower to the missing
Term — missing absorbs the rest of the fold.  However, a size/unit/type
qualifier that fails to RESOLVE (e.g. a variable in type position) is
silently dropped and does not prevent folding, contrary to the claim's
"any segment with an explicit size/unit/type qualifier" (see the
counterexample). -/
theorem c7_binary_term_folding (env : Env) (fuel : Nat)
    (els : List AstBinElement) (ctx : Ctx) :
    (∀ r ctx', (∀ seg ∈ els, (segLitBytes? seg).isSome) →
      (lowerTerm env (fuel + 1) (.binLit els)).run ctx = some (r, ctx') →
      r < ctx'.terms.length ∧ ctx'.terms.getD r .missing =
        .binary ((els.map (fun seg => (segLitBytes? seg).getD [])).flatten))
    ∧ (∀ r ctx', (∃ seg ∈ els, seg.size.isSome = true
        ∨ (∃ a, AstBitType.name (.atom a) ∈ seg.types)
        ∨ (seg.element = none ∧ seg.size = none ∧ seg.types = [])) →
      (lowerTerm env (fuel + 1) (.binLit els)).run ctx = some (r, ctx') →
      r < ctx'.terms.length ∧ ctx'.terms.getD r .missing = .missing) := by
  constructor
  · intro r ctx' hall h
    simp only [lowerTerm] at h
    obtain ⟨value, ctxm, hv, halloc⟩ := run_bind_eq_some h
    have hval := lowerBinFoldTerm_folds env els fuel [] ctx value ctxm hall hv
    simp only [List.nil_append] at hval
    subst hval
    simp only [StateT.run, allocTerm, Option.some.injEq, Prod.mk.injEq] at halloc
    obtain ⟨h1, h2⟩ := halloc
    subst h1
    subst h2
    constructor
    · simp
    · simp [List.getD, List.getElem?_concat_length]
  · intro r ctx' hbad h
    simp only [lowerTerm] at h
    obtain ⟨value, ctxm, hv, halloc⟩ := run_bind_eq_some h
    have hval := lowerBinFoldTerm_bad_missing env els fuel (.binary []) ctx value
      ctxm hbad hv
    subst hval
    simp only [StateT.run, allocTerm, Option.some.injEq, Prod.mk.injEq] at halloc
    obtain ⟨h1, h2⟩ := halloc
    subst h1
    subst h2
    constructor
    · simp
    · simp [List.getD, List.getElem?_concat_length]

/-- C7, counterexample: the segment `1/X` of `<<1/X>>` carries an
explicit type qualifier, but `X` does not resolve to an atom, so the
qualifier is dropped and the binary still folds to the one-byte constant
`<<1>>` (Term node 1) — the claim promises any segment with an explicit
type qualifier makes the whole binary lower to the missing Term. -/
theorem c7_unresolved_qualifier_still_folds :
    Option.map (fun p => (p.1, p.2.terms))
      ((lowerTerm plainEnv 5
        (.binLit [⟨some (.int 1), none, [.name (.var "X")]⟩])).run (Ctx.new 0)) =
    some (1, [Term.literal (.integer 1), Term.binary [1]]) := by decide

def c7FoldEls : List AstBinElement :=
  [⟨some (.int 1), none, []⟩, ⟨some (.int 2), none, []⟩,
   ⟨some (.int 3), none, []⟩]

/-- The completed context of lowering `<<1,2,3>>` as a Term. -/
def c7FoldCtx : Ctx :=
  { originalFileId := 0
    macroStack := [⟨missingName, 0, [], 0⟩]
    macroStackId := 0
    functionInfo := none
    exprs := []
    pats := []
    terms := [.literal (.integer 1), .literal (.integer 2),
      .literal (.integer 3), .binary [1, 2, 3]] }

def c7MissEls : List AstBinElement := [⟨some (.int 1), some (.int 16), []⟩]

/-- The completed context of lowering `<<1:16>>` as a Term. -/
def c7MissCtx : Ctx :=
  { originalFileId := 0
    macroStack := [⟨missingName, 0, [], 0⟩]
    macroStackId := 0
    functionInfo := none
    exprs := [.literal (.integer 16)]
    pats := []
    terms := [.literal (.integer 1), .missing] }

/-- C7, witness: `<<1,2,3>>` folds to the 3-byte constant binary Term,
while `<<1:16>>` (explicit size) lowers to the missing Term. -/
theorem c7_binary_term_folding_witness :
    (3 < c7FoldCtx.terms.length ∧ c7FoldCtx.terms.getD 3 .missing =
      .binary ((c7FoldEls.map (fun seg => (segLitBytes? seg).getD [])).flatten))
    ∧ (1 < c7MissCtx.terms.length ∧ c7MissCtx.terms.getD 1 .missing = .missing)
    ∧ (c7FoldEls.map (fun seg => (segLitBytes? seg).getD [])).flatten =
      [1, 2, 3] := by
  have h1 := (c7_binary_term_folding plainEnv 5 c7FoldEls (Ctx.new 0)).1 3
    c7FoldCtx (by decide) rfl
  have h2 := (c7_binary_term_folding plainEnv 3 c7MissEls (Ctx.new 0)).2 1
    c7MissCtx ⟨⟨some (.int 1), some (.int 16), []⟩, by simp [c7MissEls],
      Or.inl rfl⟩ rfl
  exact ⟨h1, h2, by decide⟩
